import Mathlib

/-!
The date range algebra of moment-range.

A shallow embedding of `src/lib/moment-range.js`.  A moment is represented by
the `Int` it compares by (`valueOf()`, milliseconds since the epoch); the
comparisons `isBefore`, `isSame`, `isAfter` and `moment.min`, `moment.max`
belong to the moment library and are modelled on that integer (all moments
are valid dates, so the order is total).  A `DateRange` is the pair of fields
`start`, `end` of the JavaScript object; `null` results are `none`, returned
arrays are lists.  Iteration (`by`) is modelled twice: on range values, where
it yields the sequence of moments passed to the callback, and on moment
objects kept in a heap, where it also shows which objects are changed.
The arithmetic of `by` and `valueOf` is JavaScript's: every result is rounded
to a double.
-/

namespace MomentRange

/-- The comparison `a.isBefore(b)` of the moment library. -/
def isBefore (a b : Int) : Bool := decide (a < b)

/-- The comparison `a.isSame(b)` of the moment library. -/
def isSame (a b : Int) : Bool := decide (a = b)

/-- The comparison `a.isAfter(b)` of the moment library. -/
def isAfter (a b : Int) : Bool := decide (b < a)

/-- The earlier of two moments, `moment.min(a, b)`: the first argument unless
the second is before it. -/
def momentMin (a b : Int) : Int := if isBefore b a then b else a

/-- The later of two moments, `moment.max(a, b)`: the first argument unless
the second is after it. -/
def momentMax (a b : Int) : Int := if isAfter b a then b else a

/-- Source `_isBeforeOrEquals(a, b)`: `a.isBefore(b) || a.isSame(b)`. -/
def _isBeforeOrEquals (a b : Int) : Bool := isBefore a b || isSame a b

/-- Source `_isAfterOrEquals(a, b)`: `a.isAfter(b) || a.isSame(b)`. -/
def _isAfterOrEquals (a b : Int) : Bool := isAfter a b || isSame a b

/-! ## JavaScript numbers

A JavaScript number is an IEEE 754 double: an arithmetic operation yields the
double nearest to the exact result, ties going to the double with an even
significand.  Doubles are modelled by their rational values.  The exponent
range (overflow, subnormal numbers) is not modelled: the millisecond values of
dates, their differences, products with a counter and quotients stay far
inside it. -/

/-- The integer nearest to `y`, the even one of the two when `y` lies halfway
between two integers. -/
def roundHalfEven (y : ℚ) : Int :=
  if y - ⌊y⌋ < 1 / 2 then ⌊y⌋
  else if 1 / 2 < y - ⌊y⌋ then ⌊y⌋ + 1
  else if ⌊y⌋ % 2 = 0 then ⌊y⌋
  else ⌊y⌋ + 1

/-- The double nearest to `x`: with `2 ^ e ≤ |x| < 2 ^ (e + 1)`, doubles of
that size are the multiples of `2 ^ (e - 52)` (a significand of 53 bits), and
`x` is rounded to the nearest multiple, ties to even. -/
def roundDouble (x : ℚ) : ℚ :=
  if x = 0 then 0
  else (roundHalfEven (x / 2 ^ (Int.log 2 |x| - 52)) : ℚ) * 2 ^ (Int.log 2 |x| - 52)

/-- The double nearest to the integer `n`, which is an integer again. -/
def toNumber (n : Int) : Int :=
  ⌊roundDouble (n : ℚ)⌋

/-- The JavaScript number `a + b` for integer-valued numbers `a` and `b`. -/
def numberAdd (a b : Int) : Int :=
  toNumber (a + b)

/-- The JavaScript number `a - b` for integer-valued numbers `a` and `b`. -/
def numberSub (a b : Int) : Int :=
  toNumber (a - b)

/-- The JavaScript number `a * b` for integer-valued numbers `a` and `b`. -/
def numberMul (a b : Int) : Int :=
  toNumber (a * b)

/-- The object built by `function DateRange`: its two fields. -/
structure DateRange where
  start : Int
  «end» : Int
deriving DecidableEq, Repr

namespace DateRange

/-- The constructor `new DateRange(start, end)` on two moments: the fields are
assigned, then exchanged when `this.end.isBefore(this.start)`. -/
def new (s e : Int) : DateRange :=
  let this : DateRange := { start := s, «end» := e }
  if isBefore this.«end» this.start then
    { start := this.«end», «end» := this.start }
  else
    this

/-- Source `DateRange.prototype.contains`, the branch for an argument that is
not a `DateRange` (a moment or date). -/
def contains (this : DateRange) (other : Int) : Bool :=
  _isBeforeOrEquals this.start other && _isAfterOrEquals this.«end» other

/-- Source `DateRange.prototype.contains`, the branch
`other instanceof DateRange`. -/
def containsRange (this other : DateRange) : Bool :=
  _isBeforeOrEquals this.start other.start && _isAfterOrEquals this.«end» other.«end»

/-- First branch condition of `intersect`: `other` hangs off the right edge. -/
def intersectCond1 (this other : DateRange) : Bool :=
  _isBeforeOrEquals this.start other.start &&
    _isBeforeOrEquals other.start this.«end» &&
    isBefore this.«end» other.«end»

/-- Second branch condition of `intersect`: `other` hangs off the left edge. -/
def intersectCond2 (this other : DateRange) : Bool :=
  isBefore other.start this.start &&
    _isBeforeOrEquals this.start other.«end» &&
    _isBeforeOrEquals other.«end» this.«end»

/-- Third branch condition of `intersect`: `other` strictly encloses `this`. -/
def intersectCond3 (this other : DateRange) : Bool :=
  isBefore other.start this.start && isBefore this.«end» other.«end»

/-- Fourth branch condition of `intersect`: `this` encloses `other`. -/
def intersectCond4 (this other : DateRange) : Bool :=
  _isBeforeOrEquals this.start other.start &&
    _isBeforeOrEquals other.«end» this.«end»

/-- Source `DateRange.prototype.intersect`; `none` is `null`. -/
def intersect (this other : DateRange) : Option DateRange :=
  if intersectCond1 this other then
    some (DateRange.new other.start this.«end»)
  else if intersectCond2 this other then
    some (DateRange.new this.start other.«end»)
  else if intersectCond3 this other then
    some this
  else if intersectCond4 this other then
    some other
  else
    none

/-- Source `DateRange.prototype.overlaps`: `this.intersect(range) !== null`. -/
def overlaps (this range : DateRange) : Bool :=
  (this.intersect range).isSome

/-- Source `DateRange.prototype.add`; `none` is `null`. -/
def add (this other : DateRange) : Option DateRange :=
  if this.overlaps other then
    some (DateRange.new (momentMin this.start other.start)
      (momentMax this.«end» other.«end»))
  else
    none

/-- Second branch condition of `subtract`: `other` covers `this`. -/
def subtractCond2 (this other : DateRange) : Bool :=
  _isBeforeOrEquals other.start this.start &&
    _isBeforeOrEquals this.«end» other.«end»

/-- Third branch condition of `subtract`: `other` cuts the left side. -/
def subtractCond3 (this other : DateRange) : Bool :=
  _isBeforeOrEquals other.start this.start &&
    isBefore other.«end» this.«end» &&
    _isBeforeOrEquals this.start other.«end»

/-- Fourth branch condition of `subtract`: `other` cuts the right side. -/
def subtractCond4 (this other : DateRange) : Bool :=
  _isBeforeOrEquals other.start this.«end» &&
    isBefore this.start other.start &&
    _isBeforeOrEquals this.«end» other.«end»

/-- Fifth branch condition of `subtract`: `other` lies inside `this`. -/
def subtractCond5 (this other : DateRange) : Bool :=
  _isBeforeOrEquals this.start other.start &&
    _isBeforeOrEquals other.«end» this.«end»

/-- Source `DateRange.prototype.subtract`; the returned array is a list. -/
def subtract (this other : DateRange) : List DateRange :=
  if (this.intersect other).isNone then
    [this]
  else if subtractCond2 this other then
    []
  else if subtractCond3 this other then
    [DateRange.new other.«end» this.«end»]
  else if subtractCond4 this other then
    [DateRange.new this.start other.start]
  else if subtractCond5 this other then
    [DateRange.new this.start other.start, DateRange.new other.«end» this.«end»]
  else
    [this]

/-- Source `DateRange.prototype.valueOf`: the JavaScript number
`this.end - this.start`, the duration in milliseconds. -/
def valueOf (this : DateRange) : Int :=
  numberSub this.«end» this.start

/-- Source `DateRange.prototype.isSame`:
`this.start.isSame(other.start) && this.end.isSame(other.end)`. -/
def isSame (this other : DateRange) : Bool :=
  MomentRange.isSame this.start other.start && MomentRange.isSame this.«end» other.«end»

/-- The guarded returns of `intersect` in source order: each branch condition
with the value its branch returns. -/
def intersectBranches (this other : DateRange) : List (Bool × DateRange) :=
  [(intersectCond1 this other, DateRange.new other.start this.«end»),
   (intersectCond2 this other, DateRange.new this.start other.«end»),
   (intersectCond3 this other, this),
   (intersectCond4 this other, other)]

/-- An `if / else if` chain over guarded returns tested in list order: the
value of the first guard that holds, `none` (the closing `return null`) when
none does. -/
def firstMatch : List (Bool × DateRange) → Option DateRange
  | [] => none
  | (c, r) :: rest => if c then some r else firstMatch rest

end DateRange

/-! ## Iteration

The callback of `by` is run for its effects only; the model records the
sequence of moments it is called with.  `moment#add(1, interval)` belongs to
the moment library and is a parameter `add1`: `add1 interval t` is the value
of a moment `t` after the call. -/

/-- The values `Math.floor` returns on a quotient of two integers: an integer,
`Infinity`, `-Infinity` or `NaN`. -/
inductive JSInteger where
  | finite (n : Int)
  | infinity
  | negInfinity
  | nan
deriving DecidableEq, Repr

/-- The JavaScript number `Math.floor(a / b)` for integer-valued numbers `a`
and `b`: division by zero gives `Infinity`, `-Infinity` or (for `0 / 0`)
`NaN`, which `Math.floor` returns unchanged; otherwise the result is the floor
of the double nearest to the exact quotient. -/
def mathFloorDiv (a b : Int) : JSInteger :=
  if b = 0 then
    if 0 < a then JSInteger.infinity
    else if a < 0 then JSInteger.negInfinity
    else JSInteger.nan
  else
    JSInteger.finite ⌊roundDouble ((a : ℚ) / (b : ℚ))⌋

/-- The second argument of `by`: a shorthand string (`typeof range ===
'string'`) or a date range. -/
inductive Step where
  | unit (interval : String)
  | range (interval : DateRange)

namespace DateRange

/-- The loop of source `_byString` from a given cursor value:
`while (this.contains(current)) { hollaback(current.clone()); current.add(1, interval); }`.
One unit of fuel is spent per test of the loop condition; `none` means the
fuel ran out with the loop still running. -/
def _byStringLoop (add1 : String → Int → Int) (this : DateRange) (interval : String) :
    Nat → Int → Option (List Int)
  | 0, _ => none
  | fuel + 1, current =>
    if this.contains current then
      (_byStringLoop add1 this interval fuel (add1 interval current)).map
        (fun calls => current :: calls)
    else
      some []

/-- Source `_byString`: the cursor starts at `moment(this.start)`. -/
def _byString (add1 : String → Int → Int) (fuel : Nat) (this : DateRange)
    (interval : String) : Option (List Int) :=
  _byStringLoop add1 this interval fuel this.start

/-- The loop of source `_byRange` from a given counter value:
`for (...; i <= l; i++) hollaback(moment(this.start.valueOf() + interval.valueOf() * i))`,
the counter and the argument of `moment` being JavaScript numbers.  One unit of
fuel is spent per test of the loop condition; `none` means the fuel ran out
with the loop still running. -/
def _byRangeLoop (this interval : DateRange) (l : Int) : Nat → Int → Option (List Int)
  | 0, _ => none
  | fuel + 1, i =>
    if i ≤ l then
      (_byRangeLoop this interval l fuel (numberAdd i 1)).map
        (fun calls => numberAdd this.start (numberMul interval.valueOf i) :: calls)
    else
      some []

/-- Source `_byRange`: `l = Math.floor(this / interval)`; nothing is done when
`l === Infinity`; otherwise the loop runs from `i = 0`, and its condition
`i <= l` is false at once when `l` is `-Infinity` or `NaN`. -/
def _byRange (fuel : Nat) (this interval : DateRange) : Option (List Int) :=
  match mathFloorDiv this.valueOf interval.valueOf with
  | JSInteger.infinity => some []
  | JSInteger.finite l => _byRangeLoop this interval l fuel 0
  | JSInteger.negInfinity => some []
  | JSInteger.nan => some []

/-- Source `DateRange.prototype.by`: the returned `this` together with the
moments the callback was called with. -/
def «by» (add1 : String → Int → Int) (fuel : Nat) (this : DateRange) (range : Step) :
    Option (DateRange × List Int) :=
  match range with
  | Step.unit interval => (_byString add1 fuel this interval).map (fun calls => (this, calls))
  | Step.range interval => (_byRange fuel this interval).map (fun calls => (this, calls))

end DateRange

/-! ## Iteration over mutable moment objects

A moment is a mutable object: `add` changes it in place, while `moment(m)`,
`m.clone()` and `moment(number)` make a new object.  To follow which object
`by` changes, the definitions below keep the moment objects in a heap and let
a range object hold the addresses of its two moments.  The callback only
receives new objects; the model records their values. -/

/-- The moment objects in memory: `cells[r]` is the value of the object at
address `r`. -/
structure Heap where
  cells : List Int
deriving DecidableEq, Repr

namespace Heap

/-- The value `m.valueOf()` of the moment object at address `r`. -/
def read (h : Heap) (r : Nat) : Int :=
  h.cells.getD r 0

/-- A new moment object holding `v` (`moment(v)`, `m.clone()`): the heap
with the object added, and its address. -/
def alloc (h : Heap) (v : Int) : Heap × Nat :=
  ({ cells := h.cells ++ [v] }, h.cells.length)

/-- The moment object at address `r` changed in place to hold `v`. -/
def write (h : Heap) (r : Nat) (v : Int) : Heap :=
  { cells := h.cells.set r v }

end Heap

/-- A `DateRange` object: its fields hold the addresses of two moment
objects. -/
structure RangeObj where
  start : Nat
  «end» : Nat
deriving DecidableEq, Repr

/-- The second argument of `by` when ranges are objects. -/
inductive StepObj where
  | unit (interval : String)
  | range (interval : RangeObj)

namespace RangeObj

/-- The range a range object stands for in a heap: the values of its two
moments. -/
def value (this : RangeObj) (h : Heap) : DateRange :=
  { start := h.read this.start, «end» := h.read this.«end» }

/-- The loop of source `_byString` on objects; `current` is the address of the
cursor.  Each round clones the cursor for the callback, then advances the
cursor object in place. -/
def _byStringLoop (add1 : String → Int → Int) (this : RangeObj) (interval : String)
    (current : Nat) : Nat → Heap → Option (Heap × List Int)
  | 0, _ => none
  | fuel + 1, h =>
    if (this.value h).contains (h.read current) then
      let cloned := h.alloc (h.read current)
      let h2 := cloned.1.write current (add1 interval (cloned.1.read current))
      (_byStringLoop add1 this interval current fuel h2).map
        (fun r => (r.1, cloned.1.read cloned.2 :: r.2))
    else
      some (h, [])

/-- Source `_byString` on objects: `var current = moment(this.start)` makes
the cursor a new object. -/
def _byString (add1 : String → Int → Int) (fuel : Nat) (this : RangeObj)
    (interval : String) (h : Heap) : Option (Heap × List Int) :=
  let made := h.alloc (h.read this.start)
  _byStringLoop add1 this interval made.2 fuel made.1

/-- The loop of source `_byRange` on objects: each round makes the new moment
`moment(this.start.valueOf() + interval.valueOf() * i)` for the callback. -/
def _byRangeLoop (this interval : RangeObj) (l : Int) :
    Nat → Int → Heap → Option (Heap × List Int)
  | 0, _, _ => none
  | fuel + 1, i, h =>
    if i ≤ l then
      let made := h.alloc
        (numberAdd (h.read this.start) (numberMul (interval.value h).valueOf i))
      (_byRangeLoop this interval l fuel (numberAdd i 1) made.1).map
        (fun r => (r.1, made.1.read made.2 :: r.2))
    else
      some (h, [])

/-- Source `_byRange` on objects. -/
def _byRange (fuel : Nat) (this interval : RangeObj) (h : Heap) :
    Option (Heap × List Int) :=
  match mathFloorDiv (this.value h).valueOf (interval.value h).valueOf with
  | JSInteger.infinity => some (h, [])
  | JSInteger.finite l => _byRangeLoop this interval l fuel 0 h
  | JSInteger.negInfinity => some (h, [])
  | JSInteger.nan => some (h, [])

/-- Source `DateRange.prototype.by` on objects: the heap after the call, the
returned object and the values the callback was called with. -/
def «by» (add1 : String → Int → Int) (fuel : Nat) (this : RangeObj) (range : StepObj)
    (h : Heap) : Option (Heap × RangeObj × List Int) :=
  match range with
  | StepObj.unit interval =>
    (_byString add1 fuel this interval h).map (fun r => (r.1, this, r.2))
  | StepObj.range interval =>
    (_byRange fuel this interval h).map (fun r => (r.1, this, r.2))

end RangeObj

/-- The step a step argument stands for in a heap. -/
def StepObj.value (range : StepObj) (h : Heap) : Step :=
  match range with
  | StepObj.unit interval => Step.unit interval
  | StepObj.range interval => Step.range (interval.value h)

/-- The addresses a step argument refers to are moment objects of the heap. -/
def StepObj.valid (range : StepObj) (h : Heap) : Prop :=
  match range with
  | StepObj.unit _ => True
  | StepObj.range interval =>
    interval.start < h.cells.length ∧ interval.«end» < h.cells.length

namespace DateRange

/-! ## Comparison lemmas -/

theorem isBefore_iff (a b : Int) : isBefore a b = true ↔ a < b := by
  simp [isBefore]

theorem isBeforeOrEquals_iff (a b : Int) : _isBeforeOrEquals a b = true ↔ a ≤ b := by
  simp only [_isBeforeOrEquals, isBefore, MomentRange.isSame, Bool.or_eq_true, decide_eq_true_eq]
  omega

theorem isAfterOrEquals_iff (a b : Int) : _isAfterOrEquals a b = true ↔ b ≤ a := by
  simp only [_isAfterOrEquals, isAfter, MomentRange.isSame, Bool.or_eq_true, decide_eq_true_eq]
  omega

theorem momentMin_eq (a b : Int) : momentMin a b = min a b := by
  simp only [momentMin, isBefore, decide_eq_true_eq]
  split_ifs <;> omega

theorem momentMax_eq (a b : Int) : momentMax a b = max a b := by
  simp only [momentMax, isAfter, decide_eq_true_eq]
  split_ifs <;> omega

/-! ## The constructor -/

theorem new_of_le {s e : Int} (h : s ≤ e) : new s e = { start := s, «end» := e } := by
  simp only [new, isBefore, decide_eq_true_eq]
  rw [if_neg (by omega)]

theorem new_of_lt {s e : Int} (h : e < s) : new s e = { start := e, «end» := s } := by
  simp only [new, isBefore, decide_eq_true_eq]
  rw [if_pos h]

theorem new_start (s e : Int) : (new s e).start = min s e := by
  rcases le_or_lt s e with h | h
  · rw [new_of_le h]; simp [h]
  · rw [new_of_lt h]; simp [h.le]

theorem new_end (s e : Int) : (new s e).«end» = max s e := by
  rcases le_or_lt s e with h | h
  · rw [new_of_le h]; simp [h]
  · rw [new_of_lt h]; simp [h.le]

theorem new_ordered (s e : Int) : (new s e).start ≤ (new s e).«end» := by
  rw [new_start, new_end]; exact le_trans (min_le_left _ _) (le_max_left _ _)

/-! ## Branch conditions as order facts -/

theorem contains_iff (R : DateRange) (p : Int) :
    R.contains p = true ↔ R.start ≤ p ∧ p ≤ R.«end» := by
  simp only [contains, Bool.and_eq_true, isBeforeOrEquals_iff, isAfterOrEquals_iff]

theorem containsRange_iff (R O : DateRange) :
    R.containsRange O = true ↔ R.start ≤ O.start ∧ O.«end» ≤ R.«end» := by
  simp only [containsRange, Bool.and_eq_true, isBeforeOrEquals_iff, isAfterOrEquals_iff]

theorem intersectCond1_iff (A B : DateRange) :
    intersectCond1 A B = true ↔ A.start ≤ B.start ∧ B.start ≤ A.«end» ∧ A.«end» < B.«end» := by
  simp only [intersectCond1, Bool.and_eq_true, isBeforeOrEquals_iff, isBefore_iff, and_assoc]

theorem intersectCond2_iff (A B : DateRange) :
    intersectCond2 A B = true ↔ B.start < A.start ∧ A.start ≤ B.«end» ∧ B.«end» ≤ A.«end» := by
  simp only [intersectCond2, Bool.and_eq_true, isBeforeOrEquals_iff, isBefore_iff, and_assoc]

theorem intersectCond3_iff (A B : DateRange) :
    intersectCond3 A B = true ↔ B.start < A.start ∧ A.«end» < B.«end» := by
  simp only [intersectCond3, Bool.and_eq_true, isBefore_iff]

theorem intersectCond4_iff (A B : DateRange) :
    intersectCond4 A B = true ↔ A.start ≤ B.start ∧ B.«end» ≤ A.«end» := by
  simp only [intersectCond4, Bool.and_eq_true, isBeforeOrEquals_iff]

theorem subtractCond2_iff (A B : DateRange) :
    subtractCond2 A B = true ↔ B.start ≤ A.start ∧ A.«end» ≤ B.«end» := by
  simp only [subtractCond2, Bool.and_eq_true, isBeforeOrEquals_iff]

theorem subtractCond3_iff (A B : DateRange) :
    subtractCond3 A B = true ↔ B.start ≤ A.start ∧ B.«end» < A.«end» ∧ A.start ≤ B.«end» := by
  simp only [subtractCond3, Bool.and_eq_true, isBeforeOrEquals_iff, isBefore_iff, and_assoc]

theorem subtractCond4_iff (A B : DateRange) :
    subtractCond4 A B = true ↔ B.start ≤ A.«end» ∧ A.start < B.start ∧ A.«end» ≤ B.«end» := by
  simp only [subtractCond4, Bool.and_eq_true, isBeforeOrEquals_iff, isBefore_iff, and_assoc]

theorem subtractCond5_iff (A B : DateRange) :
    subtractCond5 A B = true ↔ A.start ≤ B.start ∧ B.«end» ≤ A.«end» := by
  simp only [subtractCond5, Bool.and_eq_true, isBeforeOrEquals_iff]

/-! ## What `intersect` and `subtract` return on ordered ranges -/

/-- On ordered ranges `intersect` returns the range from the later start to
the earlier end when these are in order, and `none` otherwise. -/
theorem intersect_of_ordered (A B : DateRange)
    (hA : A.start ≤ A.«end») (hB : B.start ≤ B.«end») :
    A.intersect B =
      if max A.start B.start ≤ min A.«end» B.«end» then
        some { start := max A.start B.start, «end» := min A.«end» B.«end» }
      else none := by
  obtain ⟨s, e⟩ := A
  obtain ⟨os, oe⟩ := B
  simp only at hA hB
  unfold intersect
  by_cases h1 : intersectCond1 ⟨s, e⟩ ⟨os, oe⟩ = true
  · rw [if_pos h1]
    rw [intersectCond1_iff] at h1
    simp only at h1
    rw [new_of_le h1.2.1, if_pos (by simp only [le_min_iff, max_le_iff]; omega)]
    simp only [Option.some.injEq, mk.injEq]
    constructor
    · exact (max_eq_right h1.1).symm
    · exact (min_eq_left h1.2.2.le).symm
  rw [if_neg h1]
  by_cases h2 : intersectCond2 ⟨s, e⟩ ⟨os, oe⟩ = true
  · rw [if_pos h2]
    rw [intersectCond2_iff] at h2
    simp only at h2
    rw [new_of_le h2.2.1, if_pos (by simp only [le_min_iff, max_le_iff]; omega)]
    simp only [Option.some.injEq, mk.injEq]
    constructor
    · exact (max_eq_left h2.1.le).symm
    · exact (min_eq_right h2.2.2).symm
  rw [if_neg h2]
  by_cases h3 : intersectCond3 ⟨s, e⟩ ⟨os, oe⟩ = true
  · rw [if_pos h3]
    rw [intersectCond3_iff] at h3
    simp only at h3
    rw [if_pos (by simp only [le_min_iff, max_le_iff]; omega)]
    simp only [Option.some.injEq, mk.injEq]
    constructor
    · exact (max_eq_left h3.1.le).symm
    · exact (min_eq_left h3.2.le).symm
  rw [if_neg h3]
  by_cases h4 : intersectCond4 ⟨s, e⟩ ⟨os, oe⟩ = true
  · rw [if_pos h4]
    rw [intersectCond4_iff] at h4
    simp only at h4
    rw [if_pos (by simp only [le_min_iff, max_le_iff]; omega)]
    simp only [Option.some.injEq, mk.injEq]
    constructor
    · exact (max_eq_right h4.1).symm
    · exact (min_eq_right h4.2).symm
  rw [if_neg h4]
  rw [intersectCond1_iff] at h1
  rw [intersectCond2_iff] at h2
  rw [intersectCond3_iff] at h3
  rw [intersectCond4_iff] at h4
  simp only at h1 h2 h3 h4
  rw [if_neg (by simp only [le_min_iff, max_le_iff]; omega)]

/-- On ordered ranges `intersect` is `none` exactly when one range ends
before the other starts. -/
theorem intersect_eq_none_iff (A B : DateRange)
    (hA : A.start ≤ A.«end») (hB : B.start ≤ B.«end») :
    A.intersect B = none ↔ A.«end» < B.start ∨ B.«end» < A.start := by
  rw [intersect_of_ordered A B hA hB]
  by_cases h : max A.start B.start ≤ min A.«end» B.«end»
  · rw [if_pos h]
    simp only [le_min_iff, max_le_iff] at h
    constructor
    · intro h0; cases h0
    · intro h0; omega
  · rw [if_neg h]
    simp only [le_min_iff, max_le_iff] at h
    constructor
    · intro _; omega
    · intro _; rfl

/-- On ordered ranges `subtract` returns nothing when `other` covers `this`,
the part right of `other`, the part left of `other`, or both, each piece
reaching up to the boundary of `other`. -/
theorem subtract_of_ordered (A B : DateRange)
    (hA : A.start ≤ A.«end») (hB : B.start ≤ B.«end») :
    A.subtract B =
      if A.«end» < B.start ∨ B.«end» < A.start then [A]
      else if B.start ≤ A.start ∧ A.«end» ≤ B.«end» then []
      else if B.start ≤ A.start then [{ start := B.«end», «end» := A.«end» }]
      else if A.«end» ≤ B.«end» then [{ start := A.start, «end» := B.start }]
      else [{ start := A.start, «end» := B.start }, { start := B.«end», «end» := A.«end» }] := by
  unfold subtract
  by_cases hd : A.«end» < B.start ∨ B.«end» < A.start
  · rw [if_pos hd, (intersect_eq_none_iff A B hA hB).2 hd]
    rfl
  rw [if_neg hd]
  have hn : ¬ (A.intersect B).isNone = true := by
    rw [Option.isNone_iff_eq_none, intersect_eq_none_iff A B hA hB]
    exact hd
  rw [if_neg hn]
  by_cases h2 : B.start ≤ A.start ∧ A.«end» ≤ B.«end»
  · rw [if_pos h2, if_pos ((subtractCond2_iff A B).2 h2)]
  rw [if_neg h2, if_neg (fun h => h2 ((subtractCond2_iff A B).1 h))]
  by_cases h3 : B.start ≤ A.start
  · rw [if_pos h3, if_pos ((subtractCond3_iff A B).2 (by omega)), new_of_le (by omega)]
  rw [if_neg h3, if_neg (fun h => h3 ((subtractCond3_iff A B).1 h).1)]
  by_cases h4 : A.«end» ≤ B.«end»
  · rw [if_pos h4, if_pos ((subtractCond4_iff A B).2 (by omega)), new_of_le (by omega)]
  rw [if_neg h4, if_neg (fun h => h4 ((subtractCond4_iff A B).1 h).2.2)]
  rw [if_pos ((subtractCond5_iff A B).2 (by omega)), new_of_le (by omega), new_of_le (by omega)]

/-- On ordered ranges, the instants lying in some piece of `subtract` are
those of `this` that are outside `other` or are a boundary of `other` strictly
inside `this`. -/
theorem exists_mem_subtract_iff (A B : DateRange)
    (hA : A.start ≤ A.«end») (hB : B.start ≤ B.«end») (p : Int) :
    (∃ r ∈ A.subtract B, r.contains p = true) ↔
      (A.start ≤ p ∧ p ≤ A.«end») ∧
        (¬ (B.start ≤ p ∧ p ≤ B.«end») ∨ (p = B.start ∧ A.start < B.start) ∨
          (p = B.«end» ∧ B.«end» < A.«end»)) := by
  rw [subtract_of_ordered A B hA hB]
  split_ifs with h1 h2 h3 h4
  · simp only [List.mem_singleton, exists_eq_left, contains_iff]
    omega
  · simp only [List.not_mem_nil, false_and, exists_false, false_iff]
    omega
  · simp only [List.mem_singleton, exists_eq_left, contains_iff]
    omega
  · simp only [List.mem_singleton, exists_eq_left, contains_iff]
    omega
  · simp only [List.mem_cons, List.mem_singleton, exists_eq_or_imp, exists_eq_left,
      List.not_mem_nil, false_and, exists_false, or_false, contains_iff]
    omega

/-- On ordered ranges, the instants of a non-null `intersect` result are the
instants common to both ranges. -/
theorem intersect_result_mem_iff (A B : DateRange)
    (hA : A.start ≤ A.«end») (hB : B.start ≤ B.«end») (p : Int) :
    (∃ r, A.intersect B = some r ∧ r.contains p = true) ↔
      (A.start ≤ p ∧ p ≤ A.«end») ∧ (B.start ≤ p ∧ p ≤ B.«end») := by
  rw [intersect_of_ordered A B hA hB]
  split_ifs with h
  · simp only [Option.some.injEq, exists_eq_left', contains_iff, le_min_iff, max_le_iff]
    omega
  · simp only [le_min_iff, max_le_iff] at h
    simp only [exists_false, false_and, false_iff]
    omega

/-! ## Intersection -/

/-- C1: for ranges `A`, `B` with `start ≤ end` and every instant `p`,
`A.intersect(B)` is non-null with a result containing `p` exactly when both
`A` and `B` contain `p`; the result is null exactly when `A` and `B` share no
instant; and ranges that touch (`A.end = B.start`) intersect in that single
instant. -/
theorem intersect_common_instants (A B : DateRange)
    (hA : A.start ≤ A.«end») (hB : B.start ≤ B.«end») :
    (∀ p : Int, (∃ r, A.intersect B = some r ∧ r.contains p = true) ↔
        (A.contains p = true ∧ B.contains p = true)) ∧
      (A.intersect B = none ↔ ¬ ∃ p : Int, A.contains p = true ∧ B.contains p = true) ∧
      (A.«end» = B.start →
        A.intersect B = some { start := A.«end», «end» := A.«end» }) := by
  refine ⟨fun p => ?_, ?_, fun ht => ?_⟩
  · rw [intersect_of_ordered A B hA hB, contains_iff, contains_iff]
    by_cases h : max A.start B.start ≤ min A.«end» B.«end»
    · rw [if_pos h]
      constructor
      · rintro ⟨r, hr, hp⟩
        cases hr
        rw [contains_iff] at hp
        simp only [le_min_iff, max_le_iff] at hp
        omega
      · intro hp
        refine ⟨_, rfl, ?_⟩
        rw [contains_iff]
        simp only [le_min_iff, max_le_iff]
        omega
    · rw [if_neg h]
      simp only [le_min_iff, max_le_iff] at h
      constructor
      · rintro ⟨r, hr, _⟩
        cases hr
      · intro hp
        omega
  · rw [intersect_eq_none_iff A B hA hB]
    constructor
    · rintro hd ⟨p, hp1, hp2⟩
      rw [contains_iff] at hp1 hp2
      omega
    · intro hne
      by_contra hd
      apply hne
      refine ⟨max A.start B.start, ?_, ?_⟩
      · rw [contains_iff]
        simp only [le_max_iff, max_le_iff]
        omega
      · rw [contains_iff]
        simp only [le_max_iff, max_le_iff]
        omega
  · rw [intersect_of_ordered A B hA hB, if_pos (by simp only [le_min_iff, max_le_iff]; omega)]
    simp only [Option.some.injEq, mk.injEq]
    constructor
    · rw [← ht]; exact max_eq_right hA
    · rw [ht]; exact min_eq_left hB

/-- C1 at `A = [1, 10]`, `B = [10, 15]`, which touch in the instant 10. -/
theorem intersect_common_instants_witness :
    ((1 : Int) ≤ 10 ∧ (10 : Int) ≤ 15) ∧
      (∀ p : Int, (∃ r, intersect ⟨1, 10⟩ ⟨10, 15⟩ = some r ∧ r.contains p = true) ↔
        (contains ⟨1, 10⟩ p = true ∧ contains ⟨10, 15⟩ p = true)) ∧
      (intersect ⟨1, 10⟩ ⟨10, 15⟩ = none ↔
        ¬ ∃ p : Int, contains ⟨1, 10⟩ p = true ∧ contains ⟨10, 15⟩ p = true) ∧
      ((10 : Int) = 10 → intersect ⟨1, 10⟩ ⟨10, 15⟩ = some { start := 10, «end» := 10 }) :=
  ⟨⟨by decide, by decide⟩, intersect_common_instants ⟨1, 10⟩ ⟨10, 15⟩ (by decide) (by decide)⟩

/-- C6: `A.overlaps(B)` and `B.overlaps(A)` agree for all constructed ranges
`A = new DateRange(a, b)` and `B = new DateRange(c, d)`. -/
theorem overlaps_comm (a b c d : Int) :
    (DateRange.new a b).overlaps (DateRange.new c d) =
      (DateRange.new c d).overlaps (DateRange.new a b) := by
  have hA := new_ordered a b
  have hB := new_ordered c d
  unfold overlaps
  rw [Bool.eq_iff_iff, Option.isSome_iff_ne_none, Option.isSome_iff_ne_none, Ne, Ne,
    intersect_eq_none_iff _ _ hA hB, intersect_eq_none_iff _ _ hB hA]
  omega

/-! ## Construction and containment -/

/-- C7: `new DateRange(a, b)` and `new DateRange(b, a)` have the same `start`
and the same `end`; `start ≤ end` holds, `start` being the earlier and `end`
the later of `a` and `b`.  The constructor is a total function: reversed
input raises nothing. -/
theorem new_symmetric (a b : Int) :
    (DateRange.new a b).start = (DateRange.new b a).start ∧
      (DateRange.new a b).«end» = (DateRange.new b a).«end» ∧
      (DateRange.new a b).start ≤ (DateRange.new a b).«end» ∧
      (DateRange.new a b).start = min a b ∧
      (DateRange.new a b).«end» = max a b := by
  refine ⟨?_, ?_, new_ordered a b, new_start a b, new_end a b⟩
  · rw [new_start, new_start, min_comm]
  · rw [new_end, new_end, max_comm]

/-- C8: `R.contains(p)` is true exactly when `R.start ≤ p` and `p ≤ R.end`,
both ends included. -/
theorem contains_point_iff (R : DateRange) (p : Int) :
    R.contains p = true ↔ R.start ≤ p ∧ p ≤ R.«end» := by
  unfold contains _isBeforeOrEquals _isAfterOrEquals isBefore isAfter MomentRange.isSame
  simp only [Bool.and_eq_true, Bool.or_eq_true, decide_eq_true_eq]
  omega

/-! ## Subtraction -/

/-- C2: for all constructed ranges `A = new DateRange(a, b)`,
`B = new DateRange(c, d)` and every instant `p`, `A.contains(p)` holds exactly
when `p` lies in some piece of `A.subtract(B)` or `A.intersect(B)` is non-null
and contains `p`. -/
theorem subtract_intersect_reconstruct (a b c d p : Int) :
    (DateRange.new a b).contains p = true ↔
      ((∃ r ∈ (DateRange.new a b).subtract (DateRange.new c d), r.contains p = true) ∨
        (∃ r, (DateRange.new a b).intersect (DateRange.new c d) = some r ∧
          r.contains p = true)) := by
  have hA := new_ordered a b
  have hB := new_ordered c d
  rw [exists_mem_subtract_iff _ _ hA hB, intersect_result_mem_iff _ _ hA hB, contains_iff]
  omega

/-- C3, counterexample: subtracting the zero-duration range `[5, 5]` from
`[0, 10]` returns the pieces `[0, 5]` and `[5, 10]`, which both contain the
instant 5 and overlap each other, so the pieces are not pairwise disjoint. -/
theorem subtract_pieces_not_disjoint :
    (DateRange.new 0 10).subtract (DateRange.new 5 5) =
        [{ start := 0, «end» := 5 }, { start := 5, «end» := 10 }] ∧
      contains { start := 0, «end» := 5 } 5 = true ∧
      contains { start := 5, «end» := 10 } 5 = true ∧
      overlaps { start := 0, «end» := 5 } { start := 5, «end» := 10 } = true ∧
      ¬ List.Pairwise
          (fun r s : DateRange => ∀ p : Int, ¬ (r.contains p = true ∧ s.contains p = true))
          ((DateRange.new 0 10).subtract (DateRange.new 5 5)) := by
  refine ⟨by decide, by decide, by decide, by decide, ?_⟩
  have hs : (DateRange.new 0 10).subtract (DateRange.new 5 5) =
      [{ start := 0, «end» := 5 }, { start := 5, «end» := 10 }] := by decide
  rw [hs]
  intro hp
  rw [List.pairwise_cons] at hp
  exact hp.1 _ (List.mem_singleton.2 rfl) 5 ⟨by decide, by decide⟩

/-- C3, amended: for all constructed ranges `A = new DateRange(a, b)` and
`B = new DateRange(c, d)`, an instant contained in two distinct pieces of
`A.subtract(B)` is both `B.start` and `B.end`; so the pieces are pairwise
disjoint whenever `B.start < B.end`. -/
theorem subtract_pieces_share_only_point (a b c d : Int) :
    List.Pairwise
        (fun r s : DateRange => ∀ p : Int, r.contains p = true → s.contains p = true →
          p = (DateRange.new c d).start ∧ p = (DateRange.new c d).«end»)
        ((DateRange.new a b).subtract (DateRange.new c d)) ∧
      ((DateRange.new c d).start < (DateRange.new c d).«end» →
        List.Pairwise
          (fun r s : DateRange => ∀ p : Int, ¬ (r.contains p = true ∧ s.contains p = true))
          ((DateRange.new a b).subtract (DateRange.new c d))) := by
  have hA := new_ordered a b
  have hB := new_ordered c d
  rw [subtract_of_ordered _ _ hA hB]
  split_ifs with h1 h2 h3 h4
  · exact ⟨List.pairwise_singleton _ _, fun _ => List.pairwise_singleton _ _⟩
  · exact ⟨List.Pairwise.nil, fun _ => List.Pairwise.nil⟩
  · exact ⟨List.pairwise_singleton _ _, fun _ => List.pairwise_singleton _ _⟩
  · exact ⟨List.pairwise_singleton _ _, fun _ => List.pairwise_singleton _ _⟩
  · constructor
    · rw [List.pairwise_cons]
      refine ⟨fun s hs p hr hp => ?_, List.pairwise_singleton _ _⟩
      rw [List.mem_singleton] at hs
      subst hs
      rw [contains_iff] at hr hp
      simp only at hr hp
      omega
    · intro hlt
      rw [List.pairwise_cons]
      refine ⟨fun s hs p hp => ?_, List.pairwise_singleton _ _⟩
      rw [List.mem_singleton] at hs
      subst hs
      rw [contains_iff, contains_iff] at hp
      simp only at hp
      omega

/-- C4, counterexample: `[1, 10].subtract([5, 15])` is the single piece
`[1, 5]`, which contains the instant 5 although `[5, 15]` contains 5 too. -/
theorem subtract_not_set_difference :
    (DateRange.new 1 10).subtract (DateRange.new 5 15) = [{ start := 1, «end» := 5 }] ∧
      ¬ ((∃ r ∈ (DateRange.new 1 10).subtract (DateRange.new 5 15), r.contains 5 = true) ↔
        ((DateRange.new 1 10).contains 5 = true ∧ ¬ (DateRange.new 5 15).contains 5 = true)) := by
  refine ⟨by decide, ?_⟩
  intro h
  have hs : (DateRange.new 1 10).subtract (DateRange.new 5 15) =
      [{ start := 1, «end» := 5 }] := by decide
  have hp : ∃ r ∈ (DateRange.new 1 10).subtract (DateRange.new 5 15), r.contains 5 = true := by
    rw [hs]
    exact ⟨_, List.mem_singleton.2 rfl, by decide⟩
  exact (h.1 hp).2 (by decide)

/-- C4, amended: for all constructed ranges `A = new DateRange(a, b)`,
`B = new DateRange(c, d)` and every instant `p`, `p` lies in some piece of
`A.subtract(B)` exactly when `A.contains(p)` and either `B.contains(p)` is
false, or `p` is `B.start` with `A.start < B.start`, or `p` is `B.end` with
`B.end < A.end`. -/
theorem subtract_pieces_iff (a b c d p : Int) :
    (∃ r ∈ (DateRange.new a b).subtract (DateRange.new c d), r.contains p = true) ↔
      ((DateRange.new a b).contains p = true ∧
        (¬ (DateRange.new c d).contains p = true ∨
          (p = (DateRange.new c d).start ∧
            (DateRange.new a b).start < (DateRange.new c d).start) ∨
          (p = (DateRange.new c d).«end» ∧
            (DateRange.new c d).«end» < (DateRange.new a b).«end»))) := by
  rw [exists_mem_subtract_iff _ _ (new_ordered a b) (new_ordered c d), contains_iff,
    contains_iff]

/-- C9: for all constructed ranges `A = new DateRange(a, b)` and
`B = new DateRange(c, d)`, `A.subtract(B)` has exactly two pieces if and only
if `A.start < B.start` and `B.end < A.end`, and then the pieces are
`[A.start, B.start]` followed by `[B.end, A.end]`. -/
theorem subtract_two_pieces_iff (a b c d : Int) :
    (((DateRange.new a b).subtract (DateRange.new c d)).length = 2 ↔
        ((DateRange.new a b).start < (DateRange.new c d).start ∧
          (DateRange.new c d).«end» < (DateRange.new a b).«end»)) ∧
      (((DateRange.new a b).subtract (DateRange.new c d)).length = 2 →
        (DateRange.new a b).subtract (DateRange.new c d) =
          [{ start := (DateRange.new a b).start, «end» := (DateRange.new c d).start },
           { start := (DateRange.new c d).«end», «end» := (DateRange.new a b).«end» }]) := by
  have hA := new_ordered a b
  have hB := new_ordered c d
  rw [subtract_of_ordered _ _ hA hB]
  split_ifs with h1 h2 h3 h4
  · simp only [List.length_singleton, OfNat.one_ne_ofNat, false_iff, false_imp_iff, and_true]
    omega
  · simp only [List.length_nil, OfNat.zero_ne_ofNat, false_iff, false_imp_iff, and_true]
    omega
  · simp only [List.length_singleton, OfNat.one_ne_ofNat, false_iff, false_imp_iff, and_true]
    omega
  · simp only [List.length_singleton, OfNat.one_ne_ofNat, false_iff, false_imp_iff, and_true]
    omega
  · refine ⟨⟨fun _ => by omega, fun _ => rfl⟩, fun _ => rfl⟩

/-- C10: whenever `A.intersect(B)` is non-null, one of the four branch
conditions that follow the null test in `subtract` holds, so the closing
`return [this]` is never reached.  The ordering `start ≤ end` of the two
ranges is not needed. -/
theorem subtract_fallback_unreachable (A B : DateRange) (h : A.intersect B ≠ none) :
    subtractCond2 A B = true ∨ subtractCond3 A B = true ∨
      subtractCond4 A B = true ∨ subtractCond5 A B = true := by
  rw [subtractCond2_iff, subtractCond3_iff, subtractCond4_iff, subtractCond5_iff]
  unfold intersect at h
  by_cases h1 : intersectCond1 A B = true
  · rw [intersectCond1_iff] at h1
    omega
  rw [if_neg h1] at h
  by_cases h2 : intersectCond2 A B = true
  · rw [intersectCond2_iff] at h2
    omega
  rw [if_neg h2] at h
  by_cases h3 : intersectCond3 A B = true
  · rw [intersectCond3_iff] at h3
    omega
  rw [if_neg h3] at h
  by_cases h4 : intersectCond4 A B = true
  · rw [intersectCond4_iff] at h4
    omega
  rw [if_neg h4] at h
  exact absurd rfl h

/-- C10 at `A = [1, 10]`, `B = [3, 5]`, whose intersection is `B`. -/
theorem subtract_fallback_unreachable_witness :
    intersect { start := 1, «end» := 10 } { start := 3, «end» := 5 } ≠ none ∧
      (subtractCond2 { start := 1, «end» := 10 } { start := 3, «end» := 5 } = true ∨
        subtractCond3 { start := 1, «end» := 10 } { start := 3, «end» := 5 } = true ∨
        subtractCond4 { start := 1, «end» := 10 } { start := 3, «end» := 5 } = true ∨
        subtractCond5 { start := 1, «end» := 10 } { start := 3, «end» := 5 } = true) :=
  ⟨by decide, subtract_fallback_unreachable ⟨1, 10⟩ ⟨3, 5⟩ (by decide)⟩

/-! ## Union -/

/-- C5: for all constructed ranges `A = new DateRange(a, b)` and
`B = new DateRange(c, d)`: `A.add(B)` is null when `A.overlaps(B)` is false;
when it is true the result is `[min(A.start, B.start), max(A.end, B.end)]`,
which contains `A` and `B`; and when `A.end = B.start` the result is non-null
and equals `[A.start, B.end]`. -/
theorem add_spec (a b c d : Int) :
    ((DateRange.new a b).overlaps (DateRange.new c d) = false →
        (DateRange.new a b).add (DateRange.new c d) = none) ∧
      ((DateRange.new a b).overlaps (DateRange.new c d) = true →
        ∃ r, (DateRange.new a b).add (DateRange.new c d) = some r ∧
          r = { start := min (DateRange.new a b).start (DateRange.new c d).start,
                «end» := max (DateRange.new a b).«end» (DateRange.new c d).«end» } ∧
          r.containsRange (DateRange.new a b) = true ∧
          r.containsRange (DateRange.new c d) = true) ∧
      ((DateRange.new a b).«end» = (DateRange.new c d).start →
        (DateRange.new a b).add (DateRange.new c d) =
          some { start := (DateRange.new a b).start, «end» := (DateRange.new c d).«end» }) := by
  have hA := new_ordered a b
  have hB := new_ordered c d
  generalize DateRange.new a b = A at hA
  generalize DateRange.new c d = B at hB
  have hnew : DateRange.new (momentMin A.start B.start) (momentMax A.«end» B.«end») =
      { start := min A.start B.start, «end» := max A.«end» B.«end» } := by
    rw [momentMin_eq, momentMax_eq]
    exact new_of_le (by simp only [le_max_iff, min_le_iff]; omega)
  refine ⟨fun h => ?_, fun h => ?_, fun h => ?_⟩
  · unfold add
    rw [h]
    rfl
  · refine ⟨_, ?_, rfl, ?_, ?_⟩
    · unfold add
      rw [h, if_pos rfl, hnew]
    · rw [containsRange_iff]
      simp only [le_max_iff, min_le_iff]
      omega
    · rw [containsRange_iff]
      simp only [le_max_iff, min_le_iff]
      omega
  · have ho : A.overlaps B = true := by
      unfold overlaps
      rw [Option.isSome_iff_ne_none, Ne, intersect_eq_none_iff A B hA hB]
      omega
    unfold add
    rw [ho, if_pos rfl, hnew, min_eq_left (by omega), max_eq_right (by omega)]

/-! ## Reflexivity, exclusivity of the branches, and agreement of the operations -/

theorem isSame_iff (R O : DateRange) :
    R.isSame O = true ↔ R.start = O.start ∧ R.«end» = O.«end» := by
  simp only [isSame, MomentRange.isSame, Bool.and_eq_true, decide_eq_true_eq]

theorem intersect_eq_firstMatch (A B : DateRange) :
    A.intersect B = firstMatch (intersectBranches A B) := rfl

/-- An `if / else if` chain returns the value of the first guarded return
whose guard holds. -/
theorem firstMatch_eq_head_filter (l : List (Bool × DateRange)) :
    firstMatch l = ((l.filter (fun x => x.1)).head?).map (fun x => x.2) := by
  induction l with
  | nil => rfl
  | cons x rest ih =>
    obtain ⟨c, r⟩ := x
    cases c
    · simp only [firstMatch, Bool.false_eq_true, if_false, List.filter_cons_of_neg,
        not_false_eq_true, ih]
    · simp only [firstMatch, if_true, List.filter_cons_of_pos, List.head?_cons, Option.map_some']

/-- Two arrangements of the same guarded returns give the same result when at
most one guard holds. -/
theorem firstMatch_perm {l l' : List (Bool × DateRange)} (hp : l'.Perm l)
    (hone : (l.filter (fun x => x.1)).length ≤ 1) : firstMatch l' = firstMatch l := by
  rw [firstMatch_eq_head_filter, firstMatch_eq_head_filter]
  have hf : (l'.filter (fun x => x.1)).Perm (l.filter (fun x => x.1)) := hp.filter _
  generalize l.filter (fun x => x.1) = m at hf hone
  generalize l'.filter (fun x => x.1) = m' at hf
  match m, hone with
  | [], _ =>
    rw [List.perm_nil] at hf
    rw [hf]
  | [x], _ =>
    rw [List.perm_singleton] at hf
    rw [hf]

/-- At most one branch condition of `intersect` holds. -/
theorem intersectBranches_filter_length (A B : DateRange) :
    ((intersectBranches A B).filter (fun x => x.1)).length ≤ 1 := by
  have h1 := intersectCond1_iff A B
  have h2 := intersectCond2_iff A B
  have h3 := intersectCond3_iff A B
  have h4 := intersectCond4_iff A B
  unfold intersectBranches
  cases hc1 : intersectCond1 A B <;> cases hc2 : intersectCond2 A B <;>
    cases hc3 : intersectCond3 A B <;> cases hc4 : intersectCond4 A B <;>
    simp only [hc1, hc2, hc3, hc4, Bool.false_eq_true, false_iff, true_iff] at h1 h2 h3 h4 <;>
    first
      | omega
      | simp

/-- C14: every constructed range `R = new DateRange(a, b)` contains itself,
its own `start` and its own `end`; `a = b` gives the zero-duration case. -/
theorem contains_reflexive (a b : Int) :
    (DateRange.new a b).containsRange (DateRange.new a b) = true ∧
      (DateRange.new a b).contains (DateRange.new a b).start = true ∧
      (DateRange.new a b).contains (DateRange.new a b).«end» = true ∧
      (DateRange.new a a).contains (DateRange.new a a).start = true := by
  have h := new_ordered a b
  have h0 := new_ordered a a
  rw [containsRange_iff, contains_iff, contains_iff, contains_iff]
  omega

/-- C16: no two of the four branch conditions of `intersect` hold together,
and testing the four guarded returns in any other order `l` gives the value
`A.intersect(B)` returns. -/
theorem intersect_branches_exclusive (A B : DateRange) (l : List (Bool × DateRange))
    (hl : l.Perm (intersectBranches A B)) :
    ¬ (intersectCond1 A B = true ∧ intersectCond2 A B = true) ∧
      ¬ (intersectCond1 A B = true ∧ intersectCond3 A B = true) ∧
      ¬ (intersectCond1 A B = true ∧ intersectCond4 A B = true) ∧
      ¬ (intersectCond2 A B = true ∧ intersectCond3 A B = true) ∧
      ¬ (intersectCond2 A B = true ∧ intersectCond4 A B = true) ∧
      ¬ (intersectCond3 A B = true ∧ intersectCond4 A B = true) ∧
      firstMatch l = A.intersect B := by
  rw [intersectCond1_iff, intersectCond2_iff, intersectCond3_iff, intersectCond4_iff,
    intersect_eq_firstMatch, firstMatch_perm hl (intersectBranches_filter_length A B)]
  refine ⟨?_, ?_, ?_, ?_, ?_, ?_, rfl⟩ <;> omega

/-- C16 at `A = [1, 10]`, `B = [5, 15]`, with the branches tested in reverse
order. -/
theorem intersect_branches_exclusive_witness :
    ((intersectBranches ⟨1, 10⟩ ⟨5, 15⟩).reverse).Perm (intersectBranches ⟨1, 10⟩ ⟨5, 15⟩) ∧
      firstMatch (intersectBranches ⟨1, 10⟩ ⟨5, 15⟩).reverse = intersect ⟨1, 10⟩ ⟨5, 15⟩ :=
  ⟨List.reverse_perm _,
    (intersect_branches_exclusive ⟨1, 10⟩ ⟨5, 15⟩ _ (List.reverse_perm _)).2.2.2.2.2.2⟩

/-- C17: for all constructed ranges `A = new DateRange(a, b)` and
`B = new DateRange(c, d)`, `A.intersect(B)` and `B.intersect(A)` are both null,
or both non-null with results that are `isSame`. -/
theorem intersect_comm (a b c d : Int) :
    ((DateRange.new a b).intersect (DateRange.new c d) = none ∧
        (DateRange.new c d).intersect (DateRange.new a b) = none) ∨
      ∃ r r', (DateRange.new a b).intersect (DateRange.new c d) = some r ∧
        (DateRange.new c d).intersect (DateRange.new a b) = some r' ∧
        r.isSame r' = true := by
  have hA := new_ordered a b
  have hB := new_ordered c d
  rw [intersect_of_ordered _ _ hA hB, intersect_of_ordered _ _ hB hA,
    max_comm (DateRange.new c d).start, min_comm (DateRange.new c d).«end»]
  split_ifs with h
  · exact Or.inr ⟨_, _, rfl, rfl, (isSame_iff _ _).2 ⟨rfl, rfl⟩⟩
  · exact Or.inl ⟨rfl, rfl⟩

/-- C18: for all constructed ranges `A = new DateRange(a, b)`,
`B = new DateRange(c, d)` and every instant `p`: if `A` contains `p` and `B`
does not, some piece of `A.subtract(B)` contains `p`; and if
`B.start < p < B.end`, no piece contains `p`. -/
theorem subtract_covers_outside_avoids_interior (a b c d p : Int) :
    (((DateRange.new a b).contains p = true ∧ ¬ (DateRange.new c d).contains p = true) →
        ∃ r ∈ (DateRange.new a b).subtract (DateRange.new c d), r.contains p = true) ∧
      (((DateRange.new c d).start < p ∧ p < (DateRange.new c d).«end») →
        ¬ ∃ r ∈ (DateRange.new a b).subtract (DateRange.new c d), r.contains p = true) := by
  rw [exists_mem_subtract_iff _ _ (new_ordered a b) (new_ordered c d), contains_iff,
    contains_iff]
  constructor
  · intro h
    exact ⟨h.1, Or.inl h.2⟩
  · intro h
    omega

/-- C19: for all constructed ranges `A = new DateRange(a, b)` and
`B = new DateRange(c, d)`, `A.contains(B)` is true exactly when
`A.intersect(B)` is non-null and `isSame` as `B`. -/
theorem containsRange_iff_intersect_isSame (a b c d : Int) :
    (DateRange.new a b).containsRange (DateRange.new c d) = true ↔
      ∃ r, (DateRange.new a b).intersect (DateRange.new c d) = some r ∧
        r.isSame (DateRange.new c d) = true := by
  have hA := new_ordered a b
  have hB := new_ordered c d
  rw [intersect_of_ordered _ _ hA hB, containsRange_iff]
  split_ifs with h
  · simp only [Option.some.injEq, exists_eq_left', isSame_iff, max_eq_right_iff,
      min_eq_right_iff]
  · simp only [le_min_iff, max_le_iff] at h
    simp only [exists_false, false_and, iff_false]
    omega

end DateRange

/-! ## JavaScript numbers: where rounding is exact and where it is not -/

theorem roundHalfEven_intCast (n : Int) : roundHalfEven (n : ℚ) = n := by
  unfold roundHalfEven
  rw [Int.floor_intCast, sub_self, if_pos (by norm_num)]

theorem floor_le_roundHalfEven (y : ℚ) : ⌊y⌋ ≤ roundHalfEven y := by
  unfold roundHalfEven
  split_ifs <;> omega

theorem roundHalfEven_le (y : ℚ) : (roundHalfEven y : ℚ) ≤ y + 1 / 2 := by
  have h1 := Int.floor_le y
  unfold roundHalfEven
  split_ifs with h2 h3 h4
  · linarith
  · push_cast; linarith
  · linarith
  · push_cast
    have : y - ⌊y⌋ = 1 / 2 := le_antisymm (not_lt.1 h3) (not_lt.1 h2)
    linarith

theorem log_two_spec {x : ℚ} (hx : 0 < x) :
    (2 : ℚ) ^ Int.log 2 x ≤ x ∧ x < (2 : ℚ) ^ (Int.log 2 x + 1) := by
  have h1 := Int.zpow_log_le_self (b := 2) (by norm_num) hx
  have h2 := Int.lt_zpow_succ_log_self (b := 2) (by norm_num) x
  rw [Nat.cast_ofNat] at h1 h2
  exact ⟨h1, h2⟩

theorem log_two_lt_iff {x : ℚ} (hx : 0 < x) (z : Int) : Int.log 2 x < z ↔ x < (2 : ℚ) ^ z := by
  have h := Int.lt_zpow_iff_log_lt (b := 2) (by norm_num) (x := z) hx
  rw [Nat.cast_ofNat] at h
  exact h.symm

theorem le_log_two_iff {x : ℚ} (hx : 0 < x) (z : Int) : z ≤ Int.log 2 x ↔ (2 : ℚ) ^ z ≤ x := by
  have h := Int.zpow_le_iff_le_log (b := 2) (by norm_num) (x := z) hx
  rw [Nat.cast_ofNat] at h
  exact h.symm

theorem two_zpow_pos (z : Int) : (0 : ℚ) < 2 ^ z := zpow_pos (by norm_num) z

/-- A number that is an integer multiple of the spacing at its own magnitude is a double. -/
theorem roundDouble_of_multiple (x : ℚ) (m : Int)
    (hm : x = (m : ℚ) * 2 ^ (Int.log 2 |x| - 52)) : roundDouble x = x := by
  unfold roundDouble
  by_cases hx : x = 0
  · rw [if_pos hx, hx]
  · rw [if_neg hx]
    have hu := two_zpow_pos (Int.log 2 |x| - 52)
    have hq : x / 2 ^ (Int.log 2 |x| - 52) = (m : ℚ) := by
      rw [div_eq_iff hu.ne']
      exact hm
    rw [hq, roundHalfEven_intCast]
    exact hm.symm

theorem roundDouble_intCast (n : Int) (hn : |n| ≤ 2 ^ 53) : roundDouble (n : ℚ) = n := by
  by_cases h0 : n = 0
  · rw [h0]; simp [roundDouble]
  have hx : (0 : ℚ) < |(n : ℚ)| := abs_pos.2 (by exact_mod_cast h0)
  have habs : |(n : ℚ)| = ((|n| : Int) : ℚ) := by push_cast; rfl
  have h1 : (1 : ℚ) ≤ |(n : ℚ)| := by
    rw [habs]
    have : (1 : Int) ≤ |n| := Int.one_le_abs h0
    exact_mod_cast this
  have he0 : 0 ≤ Int.log 2 |(n : ℚ)| := by
    rw [le_log_two_iff hx, zpow_zero]
    exact h1
  by_cases hlt : |n| < 2 ^ 53
  · have he : Int.log 2 |(n : ℚ)| < 53 := by
      rw [log_two_lt_iff hx, habs]
      exact_mod_cast hlt
    apply roundDouble_of_multiple _ (n * 2 ^ (52 - Int.log 2 |(n : ℚ)|).toNat)
    generalize Int.log 2 |(n : ℚ)| = e at he0 he
    obtain ⟨k, rfl⟩ : ∃ k : ℕ, e = (k : Int) := ⟨e.toNat, by omega⟩
    have hk : k ≤ 52 := by omega
    have : (52 - (k : Int)).toNat = 52 - k := by omega
    rw [this]
    push_cast
    rw [mul_assoc, ← zpow_natCast, ← zpow_add₀ (by norm_num : (2 : ℚ) ≠ 0)]
    have : ((52 - k : ℕ) : Int) + ((k : Int) - 52) = 0 := by omega
    rw [this, zpow_zero, mul_one]
  · have heq : |n| = 2 ^ 53 := le_antisymm hn (not_lt.1 hlt)
    have hlog : Int.log 2 |(n : ℚ)| = 53 := by
      rw [habs, heq]
      have := Int.log_zpow (R := ℚ) (b := 2) (by norm_num) 53
      rw [Nat.cast_ofNat] at this
      rw [← this]
      norm_num
    apply roundDouble_of_multiple _ (n / 2)
    rw [hlog]
    have h2 : n = 2 * (n / 2) := by
      rcases abs_eq (by norm_num : (0 : Int) ≤ 2 ^ 53) |>.1 heq with h | h <;> rw [h] <;> norm_num
    norm_num
    have : (n : ℚ) = 2 * ((n / 2 : Int) : ℚ) := by exact_mod_cast h2
    linarith

theorem toNumber_of_abs_le (n : Int) (hn : |n| ≤ 2 ^ 53) : toNumber n = n := by
  unfold toNumber
  rw [roundDouble_intCast n hn, Int.floor_intCast]

/-- The double quotient of integers `0 ≤ a < 2^53` and `b > 0` has the floor of the exact
quotient. -/
theorem floor_roundDouble_div (a b : Int) (ha : 0 ≤ a) (ha' : a < 2 ^ 53) (hb : 0 < b) :
    ⌊roundDouble ((a : ℚ) / (b : ℚ))⌋ = a / b := by
  have hbq : (0 : ℚ) < (b : ℚ) := by exact_mod_cast hb
  have hk1 : ((a / b : Int) : ℚ) ≤ (a : ℚ) / b := by
    rw [le_div_iff₀ hbq]
    have : a / b * b ≤ a := Int.ediv_mul_le a hb.ne'
    exact_mod_cast this
  have hk2 : (a : ℚ) + 1 ≤ ((a / b : Int) + 1 : ℚ) * b := by
    have : a < (a / b + 1) * b := Int.lt_ediv_add_one_mul_self a hb
    have : a + 1 ≤ (a / b + 1) * b := this
    exact_mod_cast this
  by_cases h0 : a = 0
  · rw [h0]; simp [roundDouble]
  have hapos : (0 : ℚ) < a := by
    have : 0 < a := lt_of_le_of_ne ha (Ne.symm h0)
    exact_mod_cast this
  have hx : (0 : ℚ) < (a : ℚ) / b := div_pos hapos hbq
  have hxne : (a : ℚ) / b ≠ 0 := hx.ne'
  unfold roundDouble
  rw [if_neg hxne, abs_of_pos hx]
  obtain ⟨hl1, hl2⟩ := log_two_spec hx
  have he : Int.log 2 ((a : ℚ) / b) < 53 := by
    rw [log_two_lt_iff hx]
    have h1 : (a : ℚ) / b ≤ a := div_le_self hapos.le (by exact_mod_cast hb)
    have h2 : (a : ℚ) < 2 ^ (53 : Int) := by
      have h : (2 : ℚ) ^ (53 : Int) = ((2 ^ 53 : Int) : ℚ) := by norm_num
      rw [h]
      exact Int.cast_lt.2 ha'
    linarith
  -- `b * 2 ^ e < 2 ^ 53`
  have hbe : (b : ℚ) * 2 ^ Int.log 2 ((a : ℚ) / b) < 2 ^ (53 : Int) := by
    have h1 : (2 : ℚ) ^ Int.log 2 ((a : ℚ) / b) * b ≤ a := (le_div_iff₀ hbq).1 hl1
    have h2 : (a : ℚ) < 2 ^ (53 : Int) := by
      have h : (2 : ℚ) ^ (53 : Int) = ((2 ^ 53 : Int) : ℚ) := by norm_num
      rw [h]
      exact Int.cast_lt.2 ha'
    linarith
  generalize Int.log 2 ((a : ℚ) / b) = e at he hbe hl1 hl2
  have hu : (0 : ℚ) < 2 ^ (e - 52) := two_zpow_pos _
  -- the reciprocal of the spacing is the integer `2 ^ (52 - e)`
  obtain ⟨M, hM, hMpos⟩ : ∃ M : Int, ((M : ℚ) = 2 ^ (52 - e)) ∧ 0 < M := by
    refine ⟨2 ^ (52 - e).toNat, ?_, by positivity⟩
    push_cast
    rw [← zpow_natCast, Int.toNat_of_nonneg (by omega)]
  have hMu : (M : ℚ) * 2 ^ (e - 52) = 1 := by
    rw [hM, ← zpow_add₀ (by norm_num : (2 : ℚ) ≠ 0)]
    have : 52 - e + (e - 52) = 0 := by omega
    rw [this, zpow_zero]
  have hdiv : ∀ t : ℚ, t / 2 ^ (e - 52) = t * M := by
    intro t
    rw [div_eq_iff hu.ne', mul_assoc, hMu, mul_one]
  rw [hdiv, Int.floor_eq_iff]
  have hMq : (0 : ℚ) < M := by exact_mod_cast hMpos
  constructor
  · -- lower bound: `k * M` is an integer below `x * M`
    have h1 : ((a / b * M : Int) : ℚ) ≤ (a : ℚ) / b * M := by
      push_cast
      exact mul_le_mul_of_nonneg_right hk1 hMq.le
    have h2 : a / b * M ≤ ⌊(a : ℚ) / b * M⌋ := Int.le_floor.2 h1
    have h3 := floor_le_roundHalfEven ((a : ℚ) / b * M)
    have h4 : ((a / b * M : Int) : ℚ) ≤ (roundHalfEven ((a : ℚ) / b * M) : ℚ) := by
      exact_mod_cast le_trans h2 h3
    have h5 := mul_le_mul_of_nonneg_right h4 hu.le
    push_cast at h5
    rw [mul_assoc, hMu, mul_one] at h5
    exact h5
  · -- upper bound: `x * M + 1/2 < (k + 1) * M`
    have h1 := roundHalfEven_le ((a : ℚ) / b * M)
    have h2 : (2 : ℚ) * M > b := by
      have h53 : (2 : ℚ) ^ (53 : Int) = 2 * (2 ^ (52 - e) * 2 ^ e) := by
        rw [← zpow_add₀ (by norm_num : (2 : ℚ) ≠ 0), ← zpow_one_add₀ (by norm_num : (2 : ℚ) ≠ 0)]
        congr 1
        omega
      rw [h53, ← hM] at hbe
      have he2 : (0 : ℚ) < 2 ^ e := two_zpow_pos _
      have : (b : ℚ) * 2 ^ e < 2 * M * 2 ^ e := by linarith
      exact lt_of_mul_lt_mul_right this he2.le
    have h3 : (a : ℚ) / b * M + 1 / 2 < ((a / b : Int) + 1 : ℚ) * M := by
      have hx1 : (a : ℚ) / b + 1 / b ≤ ((a / b : Int) + 1 : ℚ) := by
        rw [← add_div, div_le_iff₀ hbq]
        exact hk2
      have hb2 : (1 : ℚ) / 2 < 1 / b * M := by
        rw [one_div_mul_eq_div, lt_div_iff₀ hbq]
        linarith
      have := mul_le_mul_of_nonneg_right hx1 hMq.le
      rw [add_mul] at this
      linarith
    have h4 : (roundHalfEven ((a : ℚ) / b * M) : ℚ) < ((a / b : Int) + 1 : ℚ) * M := by linarith
    have h5 := mul_lt_mul_of_pos_right h4 hu
    rw [mul_assoc, hMu, mul_one] at h5
    exact h5

theorem log_two_eq {x : ℚ} (hx : 0 < x) (e : Int) (h1 : (2 : ℚ) ^ e ≤ x)
    (h2 : x < (2 : ℚ) ^ (e + 1)) : Int.log 2 x = e := by
  have ha : e ≤ Int.log 2 x := (le_log_two_iff hx e).2 h1
  have hb : Int.log 2 x < e + 1 := (log_two_lt_iff hx (e + 1)).2 h2
  omega

/-- An odd integer between `2^53` and `2^54` lies halfway between two doubles and is rounded
to the one whose half is even. -/
theorem toNumber_odd_tie (m : Int) (hm : m % 2 = 1) (h1 : 2 ^ 52 ≤ m) (h2 : m + 1 ≤ 2 ^ 53) :
    toNumber (2 * m + 1) = 2 * (m + 1) := by
  have hx : (0 : ℚ) < ((2 * m + 1 : Int) : ℚ) := by
    have : (0 : Int) < 2 * m + 1 := by omega
    exact_mod_cast this
  have hlog : Int.log 2 |((2 * m + 1 : Int) : ℚ)| = 53 := by
    rw [abs_of_pos hx]
    apply log_two_eq hx
    · have h : (2 : ℚ) ^ (53 : Int) = ((2 ^ 53 : Int) : ℚ) := by norm_num
      rw [h]
      exact Int.cast_le.2 (by omega)
    · have h : (2 : ℚ) ^ ((53 : Int) + 1) = ((2 ^ 54 : Int) : ℚ) := by norm_num
      rw [h]
      exact Int.cast_lt.2 (by omega)
  have hfl : ⌊((2 * m + 1 : Int) : ℚ) / 2⌋ = m := by
    rw [Int.floor_eq_iff]
    push_cast
    constructor <;> linarith
  have hr : roundHalfEven (((2 * m + 1 : Int) : ℚ) / 2) = m + 1 := by
    unfold roundHalfEven
    rw [hfl]
    have hfrac : ((2 * m + 1 : Int) : ℚ) / 2 - (m : ℚ) = 1 / 2 := by
      push_cast; ring
    rw [hfrac, if_neg (lt_irrefl _), if_neg (lt_irrefl _), if_neg (by omega)]
  unfold toNumber roundDouble
  rw [if_neg hx.ne', hlog]
  have h21 : (2 : ℚ) ^ ((53 : Int) - 52) = 2 := by norm_num
  rw [h21, hr, Int.floor_eq_iff]
  push_cast
  constructor <;> linarith

/-- An even integer between `2^53` and `2^54` is a double. -/
theorem toNumber_even (m : Int) (h1 : 2 ^ 52 ≤ m) (h2 : m < 2 ^ 53) :
    toNumber (2 * m) = 2 * m := by
  have hx : (0 : ℚ) < ((2 * m : Int) : ℚ) := by
    have : (0 : Int) < 2 * m := by omega
    exact_mod_cast this
  have hlog : Int.log 2 |((2 * m : Int) : ℚ)| = 53 := by
    rw [abs_of_pos hx]
    apply log_two_eq hx
    · have h : (2 : ℚ) ^ (53 : Int) = ((2 ^ 53 : Int) : ℚ) := by norm_num
      rw [h]
      exact Int.cast_le.2 (by omega)
    · have h : (2 : ℚ) ^ ((53 : Int) + 1) = ((2 ^ 54 : Int) : ℚ) := by norm_num
      rw [h]
      exact Int.cast_lt.2 (by omega)
  unfold toNumber
  rw [roundDouble_of_multiple _ m, Int.floor_intCast]
  rw [hlog]
  norm_num
  ring

/-- The double nearest to an integer is an integer: taking its floor in
`toNumber` loses nothing. -/
theorem toNumber_cast (n : Int) : ((toNumber n : Int) : ℚ) = roundDouble (n : ℚ) := by
  by_cases hn : |n| ≤ 2 ^ 53
  · rw [toNumber_of_abs_le n hn, roundDouble_intCast n hn]
  · have h0 : n ≠ 0 := by
      rintro rfl
      exact hn (by decide)
    have hx : (0 : ℚ) < |(n : ℚ)| := abs_pos.2 (by exact_mod_cast h0)
    have habs : |(n : ℚ)| = ((|n| : Int) : ℚ) := by push_cast; rfl
    have he : 52 ≤ Int.log 2 |(n : ℚ)| := by
      rw [le_log_two_iff hx, habs]
      have h : (2 : ℚ) ^ (52 : Int) = ((2 ^ 52 : Int) : ℚ) := by norm_num
      rw [h]
      exact Int.cast_le.2 (by omega)
    unfold toNumber roundDouble
    rw [if_neg (by exact_mod_cast h0)]
    generalize Int.log 2 |(n : ℚ)| = e at he
    have hpow : (2 : ℚ) ^ (e - 52) = (((2 : Int) ^ (e - 52).toNat : Int) : ℚ) := by
      push_cast
      rw [← zpow_natCast, Int.toNat_of_nonneg (by omega)]
    rw [hpow, ← Int.cast_mul, Int.floor_intCast]

theorem numberAdd_of_abs_le (a b : Int) (h : |a + b| ≤ 2 ^ 53) : numberAdd a b = a + b :=
  toNumber_of_abs_le _ h

theorem numberSub_of_abs_le (a b : Int) (h : |a - b| ≤ 2 ^ 53) : numberSub a b = a - b :=
  toNumber_of_abs_le _ h

theorem numberMul_of_abs_le (a b : Int) (h : |a * b| ≤ 2 ^ 53) : numberMul a b = a * b :=
  toNumber_of_abs_le _ h

theorem floor_div_eq (a b : Int) (hb : 0 < b) : ⌊(a : ℚ) / (b : ℚ)⌋ = a / b := by
  lift b to ℕ using hb.le
  exact_mod_cast Rat.floor_intCast_div_natCast a b

theorem mathFloorDiv_of_exact (a b : Int) (ha : 0 ≤ a) (ha' : a < 2 ^ 53) (hb : 0 < b) :
    mathFloorDiv a b = JSInteger.finite (a / b) := by
  unfold mathFloorDiv
  rw [if_neg (by omega), floor_roundDouble_div a b ha ha' hb]

theorem mathFloorDiv_zero (a : Int) :
    mathFloorDiv a 0 = JSInteger.infinity ∨ mathFloorDiv a 0 = JSInteger.negInfinity ∨
      mathFloorDiv a 0 = JSInteger.nan := by
  unfold mathFloorDiv
  rw [if_pos rfl]
  split_ifs
  · exact Or.inl rfl
  · exact Or.inr (Or.inl rfl)
  · exact Or.inr (Or.inr rfl)

namespace DateRange

/-! ## Iteration: what the two loops emit -/

/-- While the counter stays below `2 ^ 53` it counts exactly, and the counted
loop started at `i` calls back once for each `j = i, i + 1, ..., l`. -/
theorem _byRangeLoop_eq (this interval : DateRange) (l : Int) (hl : l + 1 ≤ 2 ^ 53) (n : Nat) :
    ∀ (fuel : Nat) (i : Int), 0 ≤ i → l + 1 - i = n → n < fuel →
      _byRangeLoop this interval l fuel i =
        some ((List.range n).map (fun k : Nat =>
          numberAdd this.start (numberMul interval.valueOf (i + (k : Int))))) := by
  induction n with
  | zero =>
    intro fuel i _ hi hf
    obtain ⟨fuel, rfl⟩ : ∃ m, fuel = m + 1 := ⟨fuel - 1, by omega⟩
    rw [_byRangeLoop, if_neg (by omega)]
    rfl
  | succ n ih =>
    intro fuel i hi0 hi hf
    obtain ⟨fuel, rfl⟩ : ∃ m, fuel = m + 1 := ⟨fuel - 1, by omega⟩
    have hinc : numberAdd i 1 = i + 1 :=
      numberAdd_of_abs_le i 1 (abs_le.2 ⟨by omega, by omega⟩)
    rw [_byRangeLoop, if_pos (by omega), hinc, ih fuel (i + 1) (by omega) (by omega) (by omega),
      Option.map_some', List.range_succ_eq_map, List.map_cons, List.map_map]
    congr 2
    · simp
    · apply List.map_congr_left
      intro k _
      simp only [Function.comp_apply, Nat.cast_succ]
      have hk : i + 1 + (k : Int) = i + ((k : Int) + 1) := by ring
      rw [hk]

/-- With instants between `-2 ^ 53` and `2 ^ 53`, a duration below `2 ^ 53`
and a step range of duration `0 < d ≤ 2 ^ 53`, no result of the counted loop
is rounded: it emits `this.start + d * k` for
`k = 0, ..., floor(duration / d)`. -/
theorem _byRange_of_exact (this interval : DateRange) (hord : this.start ≤ this.«end»)
    (hs : -2 ^ 53 ≤ this.start) (he : this.«end» ≤ 2 ^ 53)
    (hdur : this.«end» - this.start < 2 ^ 53)
    (hd : 0 < interval.«end» - interval.start) (hd' : interval.«end» - interval.start ≤ 2 ^ 53)
    (fuel : Nat)
    (hf : ((this.«end» - this.start) / (interval.«end» - interval.start) + 1).toNat < fuel) :
    _byRange fuel this interval =
      some ((List.range
          ((this.«end» - this.start) / (interval.«end» - interval.start) + 1).toNat).map
        (fun k : Nat => this.start + (interval.«end» - interval.start) * (k : Int))) := by
  have hva : this.valueOf = this.«end» - this.start :=
    numberSub_of_abs_le _ _ (abs_le.2 ⟨by omega, by omega⟩)
  have hvd : interval.valueOf = interval.«end» - interval.start :=
    numberSub_of_abs_le _ _ (abs_le.2 ⟨by omega, by omega⟩)
  obtain ⟨a, hadef⟩ : ∃ a, a = this.«end» - this.start := ⟨_, rfl⟩
  obtain ⟨d, hddef⟩ : ∃ d, d = interval.«end» - interval.start := ⟨_, rfl⟩
  rw [← hadef] at hva hdur hf ⊢
  rw [← hddef] at hvd hd hd' hf ⊢
  have ha : 0 ≤ a := by omega
  have hq0 : 0 ≤ a / d := Int.ediv_nonneg ha hd.le
  have hqa : d * (a / d) ≤ a := Int.mul_ediv_self_le (by omega)
  have hqle : a / d ≤ a := Int.ediv_le_self _ ha
  unfold _byRange
  rw [hva, hvd, mathFloorDiv_of_exact a d ha hdur hd]
  simp only
  rw [_byRangeLoop_eq this interval (a / d) (by omega) (a / d + 1).toNat fuel 0 le_rfl
    (by omega) hf, hvd]
  congr 1
  apply List.map_congr_left
  intro k hk
  rw [List.mem_range] at hk
  have hk' : (k : Int) ≤ a / d := by omega
  have hk0 : (0 : Int) ≤ (k : Int) := Int.natCast_nonneg k
  have hdk : d * (k : Int) ≤ d * (a / d) := Int.mul_le_mul_of_nonneg_left hk' hd.le
  have hdk0 : 0 ≤ d * (k : Int) := Int.mul_nonneg hd.le hk0
  rw [zero_add, numberMul_of_abs_le d k (abs_le.2 ⟨by omega, by omega⟩),
    numberAdd_of_abs_le _ _ (abs_le.2 ⟨by omega, by omega⟩)]

theorem _byRange_of_finite (fuel : Nat) (this interval : DateRange) (l : Int)
    (h : mathFloorDiv this.valueOf interval.valueOf = JSInteger.finite l) :
    _byRange fuel this interval = _byRangeLoop this interval l fuel 0 := by
  unfold _byRange
  rw [h]

theorem by_range_eq (add1 : String → Int → Int) (fuel : Nat) (this interval : DateRange) :
    this.«by» add1 fuel (Step.range interval) =
      (_byRange fuel this interval).map (fun calls => (this, calls)) := rfl

theorem by_unit_eq (add1 : String → Int → Int) (fuel : Nat) (this : DateRange)
    (interval : String) :
    this.«by» add1 fuel (Step.unit interval) =
      (_byString add1 fuel this interval).map (fun calls => (this, calls)) := rfl

/-- With a unit that advances by a fixed `u`, the cursor loop started at
`cur` emits `cur + u * k` for `k < n`, when `n` is the first index at which
the cursor has passed `this.end`, provided the fuel exceeds `n`. -/
theorem _byStringLoop_eq (add1 : String → Int → Int) (this : DateRange) (interval : String)
    (u : Int) (hadd : ∀ t, add1 interval t = t + u) (hu : 0 ≤ u) (n : Nat) :
    ∀ (fuel : Nat) (cur : Int), n < fuel → this.start ≤ cur →
      (∀ k : Nat, k < n → cur + u * (k : Int) ≤ this.«end») →
      this.«end» < cur + u * (n : Int) →
      _byStringLoop add1 this interval fuel cur =
        some ((List.range n).map (fun k : Nat => cur + u * (k : Int))) := by
  induction n with
  | zero =>
    intro fuel cur hf hs _ hlast
    obtain ⟨fuel, rfl⟩ : ∃ m, fuel = m + 1 := ⟨fuel - 1, by omega⟩
    have hc : ¬ this.contains cur = true := by
      rw [contains_iff]
      simp only [Nat.cast_zero, mul_zero, add_zero] at hlast
      omega
    rw [_byStringLoop, if_neg hc]
    rfl
  | succ n ih =>
    intro fuel cur hf hs hall hlast
    obtain ⟨fuel, rfl⟩ : ∃ m, fuel = m + 1 := ⟨fuel - 1, by omega⟩
    have h0 := hall 0 (Nat.succ_pos n)
    simp only [Nat.cast_zero, mul_zero, add_zero] at h0
    have hc : this.contains cur = true := (contains_iff _ _).2 ⟨hs, h0⟩
    rw [_byStringLoop, if_pos hc, hadd, ih fuel (cur + u) (by omega) (by omega) ?_ ?_]
    · rw [Option.map_some', List.range_succ_eq_map, List.map_cons, List.map_map]
      congr 2
      · simp
      · apply List.map_congr_left
        intro k _
        simp only [Function.comp_apply, Nat.cast_succ]
        ring
    · intro k hk
      have := hall (k + 1) (by omega)
      simp only [Nat.cast_succ] at this
      linarith
    · simp only [Nat.cast_succ] at hlast
      linarith

/-- The number of cursor positions up to `e` when stepping from `s` by
`u > 0`: every earlier index stays within `e` and the index itself is past
`e`. -/
theorem count_spec (s e u : Int) (hu : 0 < u) :
    (∀ k : Nat, k < ((e - s) / u + 1).toNat → s + u * (k : Int) ≤ e) ∧
      e < s + u * (((e - s) / u + 1).toNat : Int) := by
  have h1 : u * ((e - s) / u) ≤ e - s := Int.mul_ediv_self_le (by omega)
  have h2 : e - s < u * ((e - s) / u) + u := Int.lt_mul_ediv_self_add hu
  constructor
  · intro k hk
    have hk' : (k : Int) ≤ (e - s) / u := by omega
    have : u * (k : Int) ≤ u * ((e - s) / u) := Int.mul_le_mul_of_nonneg_left hk' hu.le
    omega
  · by_cases hq : 0 ≤ (e - s) / u + 1
    · rw [Int.toNat_of_nonneg hq]
      have : u * ((e - s) / u + 1) = u * ((e - s) / u) + u := by ring
      omega
    · rw [Int.toNat_eq_zero.2 (by omega)]
      have : u * ((e - s) / u + 1) ≤ u * 0 := Int.mul_le_mul_of_nonneg_left (by omega) hu.le
      have : u * ((e - s) / u + 1) = u * ((e - s) / u) + u := by ring
      simp only [Nat.cast_zero, mul_zero, add_zero]
      omega

/-- With a unit that advances by a fixed `u > 0` and enough fuel, the cursor
loop emits `this.start + u * k` for `k = 0, ..., floor(duration / u)`. -/
theorem _byString_of_pos (add1 : String → Int → Int) (this : DateRange) (interval : String)
    (u : Int) (hadd : ∀ t, add1 interval t = t + u) (hu : 0 < u) (fuel : Nat)
    (hf : ((this.«end» - this.start) / u + 1).toNat < fuel) :
    _byString add1 fuel this interval =
      some ((List.range ((this.«end» - this.start) / u + 1).toNat).map
        (fun k : Nat => this.start + u * (k : Int))) := by
  obtain ⟨h1, h2⟩ := count_spec this.start this.«end» u hu
  exact _byStringLoop_eq add1 this interval u hadd hu.le _ fuel this.start hf le_rfl h1 h2

end DateRange

/-! ## Iteration over mutable moment objects: the heap -/

namespace Heap

theorem read_of_prefix {pre : List Int} {h : Heap} (hp : pre <+: h.cells) {r : Nat}
    (hr : r < pre.length) : h.read r = pre.getD r 0 := by
  obtain ⟨t, ht⟩ := hp
  unfold read
  rw [← ht, List.getD_append _ _ _ _ hr]

theorem length_le_of_prefix {pre : List Int} {h : Heap} (hp : pre <+: h.cells) :
    pre.length ≤ h.cells.length := hp.length_le

theorem prefix_alloc {pre : List Int} {h : Heap} (hp : pre <+: h.cells) (v : Int) :
    pre <+: (h.alloc v).1.cells :=
  hp.trans (List.prefix_append _ _)

theorem prefix_write {pre : List Int} {h : Heap} (hp : pre <+: h.cells) {c : Nat}
    (hc : pre.length ≤ c) (v : Int) : pre <+: (h.write c v).cells := by
  obtain ⟨t, ht⟩ := hp
  unfold write
  simp only
  rw [← ht, List.set_append_right _ _ hc]
  exact List.prefix_append _ _

theorem length_alloc (h : Heap) (v : Int) :
    (h.alloc v).1.cells.length = h.cells.length + 1 := by
  simp only [alloc, List.length_append, List.length_singleton]

theorem length_write (h : Heap) (c : Nat) (v : Int) :
    (h.write c v).cells.length = h.cells.length := by
  simp only [write, List.length_set]

theorem read_alloc_new (h : Heap) (v : Int) : (h.alloc v).1.read (h.alloc v).2 = v := by
  simp only [alloc, read, List.getD_eq_getElem?_getD, List.getElem?_concat_length,
    Option.getD_some]

theorem read_alloc_old (h : Heap) (v : Int) {r : Nat} (hr : r < h.cells.length) :
    (h.alloc v).1.read r = h.read r := by
  simp only [alloc, read]
  exact List.getD_append _ _ _ _ hr

theorem read_write_same (h : Heap) (v : Int) {c : Nat} (hc : c < h.cells.length) :
    (h.write c v).read c = v := by
  simp only [write, read, List.getD_eq_getElem?_getD, List.getElem?_set_self hc,
    Option.getD_some]

end Heap

namespace RangeObj

/-- A range object whose two moments lie in an unchanged initial part of the
heap keeps its value. -/
theorem value_of_prefix {pre : List Int} {h : Heap} (hp : pre <+: h.cells) (R : RangeObj)
    (hs : R.start < pre.length) (he : R.«end» < pre.length) :
    R.value h = R.value { cells := pre } := by
  unfold value
  rw [Heap.read_of_prefix hp hs, Heap.read_of_prefix hp he]
  rfl

/-- The cursor loop on objects calls back with the values the cursor loop on
values emits, and leaves every object that existed before the cursor was made
as it was. -/
theorem _byStringLoop_spec (add1 : String → Int → Int) (this : RangeObj) (interval : String)
    (current : Nat) (pre : List Int) (hs : this.start < pre.length)
    (he : this.«end» < pre.length) (hc : pre.length ≤ current) :
    ∀ (fuel : Nat) (h : Heap), pre <+: h.cells → current < h.cells.length →
      (_byStringLoop add1 this interval current fuel h).map (fun r => r.2) =
          DateRange._byStringLoop add1 (this.value { cells := pre }) interval fuel
            (h.read current) ∧
        ∀ r, _byStringLoop add1 this interval current fuel h = some r → pre <+: r.1.cells := by
  intro fuel
  induction fuel with
  | zero =>
    intro h _ _
    refine ⟨rfl, fun r hr => ?_⟩
    cases hr
  | succ fuel ih =>
    intro h hp hlt
    have hv := value_of_prefix hp this hs he
    have hp1 := Heap.prefix_alloc hp (h.read current)
    have hr1 : (h.alloc (h.read current)).1.read current = h.read current :=
      Heap.read_alloc_old h _ hlt
    have hlt1 : current < (h.alloc (h.read current)).1.cells.length := by
      rw [Heap.length_alloc]; omega
    have hp2 := Heap.prefix_write hp1 hc (add1 interval (h.read current))
    have hlt2 : current <
        ((h.alloc (h.read current)).1.write current
          (add1 interval (h.read current))).cells.length := by
      rw [Heap.length_write]; exact hlt1
    have hr2 := Heap.read_write_same (h.alloc (h.read current)).1
      (add1 interval (h.read current)) hlt1
    obtain ⟨ih1, ih2⟩ := ih _ hp2 hlt2
    rw [hr2] at ih1
    by_cases hcont : (this.value h).contains (h.read current) = true
    · have hcont' := hcont
      rw [hv] at hcont'
      simp only [_byStringLoop, DateRange._byStringLoop, if_pos hcont, if_pos hcont', hr1,
        Heap.read_alloc_new, Option.map_map]
      constructor
      · rw [← ih1, Option.map_map]
        rfl
      · intro r hr
        rw [Option.map_eq_some'] at hr
        obtain ⟨r0, hr0, rfl⟩ := hr
        exact ih2 r0 hr0
    · have hcont' := hcont
      rw [hv] at hcont'
      simp only [_byStringLoop, DateRange._byStringLoop, if_neg hcont, if_neg hcont',
        Option.map_some', Option.some.injEq]
      refine ⟨trivial, fun r hr => ?_⟩
      rw [← hr]
      exact hp

end RangeObj

namespace DateRange

theorem getElem?_range_map (n : Nat) (f : Nat → Int) (i : Nat) (hi : i < n) :
    ((List.range n).map f)[i]? = some (f i) := by
  rw [List.getElem?_map, List.getElem?_range hi]
  rfl

/-- C11, counterexample: for `R = [-8640000000000000, 8639999999999999]` and
the step range `S = [-8640000000000000, 8640000000000000]`, both between valid
dates, the duration of `R` is rounded up to the duration `d` of `S`, so `by`
calls back twice, the second time with an instant after `R.end`, although
`floor((R.end - R.start) / d) + 1 = 1`. -/
theorem counted_loop_rounds_duration :
    (∀ fuel : Nat, 3 ≤ fuel →
        (DateRange.new (-8640000000000000) 8639999999999999).«by» (fun _ t => t) fuel
            (Step.range (DateRange.new (-8640000000000000) 8640000000000000)) =
          some (DateRange.new (-8640000000000000) 8639999999999999,
            [-8640000000000000, 8640000000000000])) ∧
      ⌊((((DateRange.new (-8640000000000000) 8639999999999999).«end» -
            (DateRange.new (-8640000000000000) 8639999999999999).start : Int) : ℚ)) /
          ((((DateRange.new (-8640000000000000) 8640000000000000).«end» -
            (DateRange.new (-8640000000000000) 8640000000000000).start : Int) : ℚ))⌋ + 1 = 1 ∧
      (DateRange.new (-8640000000000000) 8639999999999999).«end» < 8640000000000000 := by
  have hR : DateRange.new (-8640000000000000) 8639999999999999 =
      { start := -8640000000000000, «end» := 8639999999999999 } := new_of_le (by decide)
  have hS : DateRange.new (-8640000000000000) 8640000000000000 =
      { start := -8640000000000000, «end» := 8640000000000000 } := new_of_le (by decide)
  rw [hR, hS]
  have hvR : valueOf { start := -8640000000000000, «end» := 8639999999999999 } =
      17280000000000000 :=
    toNumber_odd_tie 8639999999999999 (by decide) (by decide) (by decide)
  have hvS : valueOf { start := -8640000000000000, «end» := 8640000000000000 } =
      17280000000000000 :=
    toNumber_even 8640000000000000 (by decide) (by decide)
  have hl : mathFloorDiv 17280000000000000 17280000000000000 = JSInteger.finite 1 := by
    unfold mathFloorDiv
    rw [if_neg (by decide)]
    have hq : ((17280000000000000 : Int) : ℚ) / ((17280000000000000 : Int) : ℚ) =
        ((1 : Int) : ℚ) := by norm_num
    rw [hq, roundDouble_intCast 1 (by decide), Int.floor_intCast]
  have hfin : mathFloorDiv
      (valueOf { start := -8640000000000000, «end» := 8639999999999999 })
      (valueOf { start := -8640000000000000, «end» := 8640000000000000 }) =
        JSInteger.finite 1 := by
    rw [hvR, hvS]
    exact hl
  have hlist : (List.range 2).map (fun k : Nat =>
      numberAdd (-8640000000000000) (numberMul 17280000000000000 (0 + (k : Int)))) =
        [-8640000000000000, 8640000000000000] := by
    have h0 : numberMul 17280000000000000 (0 + ((0 : Nat) : Int)) = 0 :=
      numberMul_of_abs_le _ _ (by decide)
    have h1 : numberMul 17280000000000000 (0 + ((1 : Nat) : Int)) = 17280000000000000 :=
      toNumber_even 8640000000000000 (by decide) (by decide)
    have h2 : numberAdd (-8640000000000000) 0 = -8640000000000000 :=
      numberAdd_of_abs_le _ _ (by decide)
    have h3 : numberAdd (-8640000000000000) 17280000000000000 = 8640000000000000 :=
      numberAdd_of_abs_le _ _ (by decide)
    simp only [List.range_succ, List.range_zero, List.nil_append, List.singleton_append,
      List.map_cons, List.map_nil, h0, h1, h2, h3]
  refine ⟨fun fuel hf => ?_, ?_, by decide⟩
  · rw [by_range_eq, _byRange_of_finite fuel _ _ 1 hfin,
      _byRangeLoop_eq _ _ 1 (by decide) 2 fuel 0 le_rfl (by decide) (by omega), hvS]
    simp only
    rw [hlist]
    rfl
  · rw [floor_div_eq _ _ (by decide)]
    decide

/-- C11, amended: for a range `R` with `-2 ^ 53 ≤ R.start ≤ R.end ≤ 2 ^ 53` and
`R.end - R.start < 2 ^ 53`, and a step range `S` of duration
`0 < d ≤ 2 ^ 53`, with `n = floor((R.end - R.start) / d)`, `R.by(S, cb)` ends
(any large enough fuel gives the same result) and returns `R` after calling
`cb` exactly `n + 1` times, the call of index `i` (from 0) receiving
`R.start + i * d`. -/
theorem by_range_calls (add1 : String → Int → Int) (R S : DateRange)
    (hord : R.start ≤ R.«end») (hs : -2 ^ 53 ≤ R.start) (he : R.«end» ≤ 2 ^ 53)
    (hdur : R.«end» - R.start < 2 ^ 53)
    (hd : 0 < S.«end» - S.start) (hd' : S.«end» - S.start ≤ 2 ^ 53) :
    ∃ calls,
      (∃ N : Nat, ∀ fuel : Nat, N ≤ fuel →
        R.«by» add1 fuel (Step.range S) = some (R, calls)) ∧
      (calls.length : Int) =
        ⌊(((R.«end» - R.start : Int) : ℚ)) / (((S.«end» - S.start : Int) : ℚ))⌋ + 1 ∧
      ∀ i : Nat, i < calls.length →
        calls[i]? = some (R.start + (i : Int) * (S.«end» - S.start)) := by
  refine ⟨(List.range ((R.«end» - R.start) / (S.«end» - S.start) + 1).toNat).map
      (fun k : Nat => R.start + (S.«end» - S.start) * (k : Int)),
    ⟨((R.«end» - R.start) / (S.«end» - S.start) + 1).toNat + 1, fun fuel hf => ?_⟩, ?_, ?_⟩
  · rw [by_range_eq, _byRange_of_exact R S hord hs he hdur hd hd' fuel (by omega)]
    rfl
  · rw [List.length_map, List.length_range, floor_div_eq _ _ hd]
    have hq : 0 ≤ (R.«end» - R.start) / (S.«end» - S.start) :=
      Int.ediv_nonneg (by omega) hd.le
    rw [Int.toNat_of_nonneg (by omega)]
  · intro i hi
    rw [List.length_map, List.length_range] at hi
    rw [getElem?_range_map _ _ _ hi, mul_comm]

/-- C11, amended, at `R = [0, 10]` and a step range `[0, 3]` of duration 3. -/
theorem by_range_calls_witness :
    (start { start := 0, «end» := 10 } ≤ «end» { start := 0, «end» := 10 } ∧
        -2 ^ 53 ≤ start { start := 0, «end» := 10 } ∧
        «end» { start := 0, «end» := 10 } ≤ 2 ^ 53 ∧
        «end» { start := 0, «end» := 10 } - start { start := 0, «end» := 10 } < 2 ^ 53 ∧
        0 < «end» { start := 0, «end» := 3 } - start { start := 0, «end» := 3 } ∧
        «end» { start := 0, «end» := 3 } - start { start := 0, «end» := 3 } ≤ 2 ^ 53) ∧
      ∃ calls,
        (∃ N : Nat, ∀ fuel : Nat, N ≤ fuel →
          «by» (fun _ t => t) fuel { start := 0, «end» := 10 } (Step.range ⟨0, 3⟩) =
            some ({ start := 0, «end» := 10 }, calls)) ∧
        (calls.length : Int) =
          ⌊(((«end» { start := 0, «end» := 10 } - start { start := 0, «end» := 10 } : Int) : ℚ)) /
            (((«end» { start := 0, «end» := 3 } - start { start := 0, «end» := 3 } : Int) : ℚ))⌋
            + 1 ∧
        ∀ i : Nat, i < calls.length →
          calls[i]? = some (start { start := 0, «end» := 10 } +
            (i : Int) * («end» { start := 0, «end» := 3 } - start { start := 0, «end» := 3 })) :=
  ⟨⟨by decide, by decide, by decide, by decide, by decide, by decide⟩,
    by_range_calls (fun _ t => t) ⟨0, 10⟩ ⟨0, 3⟩ (by decide) (by decide) (by decide)
      (by decide) (by decide) (by decide)⟩

/-- C12: for every range `R` and every step range `S` of zero duration,
`R.by(S, cb)` returns `R` without calling `cb`, whatever the duration of
`R`. -/
theorem by_zero_step (add1 : String → Int → Int) (fuel : Nat) (R S : DateRange)
    (hS : S.valueOf = 0) :
    R.«by» add1 fuel (Step.range S) = some (R, []) := by
  show (_byRange fuel R S).map (fun calls => (R, calls)) = some (R, [])
  unfold _byRange
  rw [hS]
  rcases mathFloorDiv_zero R.valueOf with h | h | h <;> rw [h] <;> rfl

/-- C12 at `R = [1, 10]` and the zero-duration step range `[2, 2]`. -/
theorem by_zero_step_witness :
    valueOf { start := 2, «end» := 2 } = 0 ∧
      «by» (fun _ t => t) 0 { start := 1, «end» := 10 } (Step.range ⟨2, 2⟩) =
        some ({ start := 1, «end» := 10 }, []) :=
  ⟨by decide, by_zero_step (fun _ t => t) 0 ⟨1, 10⟩ ⟨2, 2⟩ (by decide)⟩

/-- C13: for every range `R` and every unit whose `add(1, unit)` advances a
moment by a fixed `u > 0`, `R.by(unit, cb)` ends (any large enough fuel gives
the same result) and returns `R` after calling `cb` with `R.start + k * u`
for `k = 0, 1, ...` in this order, for exactly the `k` with
`R.start + k * u ≤ R.end`.  When `R.end = R.start + 9 * u` there are 10
calls, the last one with `R.end`. -/
theorem by_unit_calls (add1 : String → Int → Int) (interval : String) (u : Int)
    (hu : 0 < u) (hadd : ∀ t, add1 interval t = t + u) (R : DateRange) :
    ∃ calls,
      (∃ N : Nat, ∀ fuel : Nat, N ≤ fuel →
        R.«by» add1 fuel (Step.unit interval) = some (R, calls)) ∧
      (∀ i : Nat, i < calls.length → calls[i]? = some (R.start + (i : Int) * u)) ∧
      (∀ k : Nat, k < calls.length ↔ R.start + (k : Int) * u ≤ R.«end») ∧
      (R.«end» = R.start + 9 * u → calls.length = 10 ∧ calls.getLast? = some R.«end») := by
  obtain ⟨h1, h2⟩ := count_spec R.start R.«end» u hu
  have hlen : ((List.range ((R.«end» - R.start) / u + 1).toNat).map
      (fun k : Nat => R.start + u * (k : Int))).length = ((R.«end» - R.start) / u + 1).toNat := by
    rw [List.length_map, List.length_range]
  refine ⟨(List.range ((R.«end» - R.start) / u + 1).toNat).map
      (fun k : Nat => R.start + u * (k : Int)),
    ⟨((R.«end» - R.start) / u + 1).toNat + 1, fun fuel hf => ?_⟩, ?_, ?_, ?_⟩
  · unfold «by»
    simp only
    rw [_byString_of_pos add1 R interval u hadd hu fuel (by omega)]
    rfl
  · intro i hi
    rw [hlen] at hi
    rw [getElem?_range_map _ _ _ hi, mul_comm]
  · intro k
    rw [hlen]
    constructor
    · intro hk
      have := h1 k hk
      rw [mul_comm]
      exact this
    · intro hk
      by_contra hge
      have hle : (((R.«end» - R.start) / u + 1).toNat : Int) ≤ (k : Int) := by omega
      have := Int.mul_le_mul_of_nonneg_left hle hu.le
      rw [mul_comm] at hk
      omega
  · intro he
    have hq : (R.«end» - R.start) / u = 9 := by
      rw [he, add_sub_cancel_left, Int.mul_ediv_cancel _ (by omega)]
    have hn : ((R.«end» - R.start) / u + 1).toNat = 10 := by
      rw [hq]
      rfl
    rw [hn]
    refine ⟨rfl, ?_⟩
    rw [List.getLast?_eq_getElem?, List.length_map, List.length_range,
      getElem?_range_map _ _ _ (by omega), he]
    simp only [Nat.add_one_sub_one, Nat.cast_ofNat, Option.some.injEq]
    ring

/-- C13 for the unit `"day"` of 86400000 ms and a range of exactly 9 days. -/
theorem by_unit_calls_witness :
    (0 : Int) < 86400000 ∧
      (∀ t : Int, (fun (_ : String) (x : Int) => x + 86400000) "day" t = t + 86400000) ∧
      ∃ calls,
        (∃ N : Nat, ∀ fuel : Nat, N ≤ fuel →
          «by» (fun _ x => x + 86400000) fuel { start := 0, «end» := 777600000 }
            (Step.unit "day") = some ({ start := 0, «end» := 777600000 }, calls)) ∧
        (∀ i : Nat, i < calls.length →
          calls[i]? = some (start { start := 0, «end» := 777600000 } + (i : Int) * 86400000)) ∧
        (∀ k : Nat, k < calls.length ↔
          start { start := 0, «end» := 777600000 } + (k : Int) * 86400000 ≤
            «end» { start := 0, «end» := 777600000 }) ∧
        («end» { start := 0, «end» := 777600000 } =
            start { start := 0, «end» := 777600000 } + 9 * 86400000 →
          calls.length = 10 ∧
            calls.getLast? = some («end» { start := 0, «end» := 777600000 })) :=
  ⟨by decide, fun _ => rfl,
    by_unit_calls (fun _ x => x + 86400000) "day" 86400000 (by decide) (fun _ => rfl)
      ⟨0, 777600000⟩⟩

/-- C20, counterexample: for `R = [-8640000000000000, 367199308799999]`, the
unit `"week"` of 604800000 ms and the step range `[0, 604800000]` of the same
duration, the duration of `R` is rounded up to a whole number of weeks: the
counted loop calls back 14892857 times, the last time with `R.end + 1`, the
cursor loop 14892856 times, so the two modes do not emit the same sequence. -/
theorem by_modes_disagree :
    (∀ fuel : Nat, 14892858 ≤ fuel →
        ∃ cu cr,
          (DateRange.new (-8640000000000000) 367199308799999).«by»
              (fun _ t => t + 604800000) fuel (Step.unit "week") =
            some (DateRange.new (-8640000000000000) 367199308799999, cu) ∧
          (DateRange.new (-8640000000000000) 367199308799999).«by»
              (fun _ t => t + 604800000) fuel (Step.range (DateRange.new 0 604800000)) =
            some (DateRange.new (-8640000000000000) 367199308799999, cr) ∧
          cu.length = 14892856 ∧ cr.length = 14892857 ∧
          cr.getLast? = some 367199308800000) ∧
      ¬ ∃ N : Nat, ∀ fuel : Nat, N ≤ fuel →
        ((DateRange.new (-8640000000000000) 367199308799999).«by»
            (fun _ t => t + 604800000) fuel (Step.unit "week")).isSome = true ∧
          (DateRange.new (-8640000000000000) 367199308799999).«by»
              (fun _ t => t + 604800000) fuel (Step.unit "week") =
            (DateRange.new (-8640000000000000) 367199308799999).«by»
              (fun _ t => t + 604800000) fuel (Step.range (DateRange.new 0 604800000)) := by
  have hR : DateRange.new (-8640000000000000) 367199308799999 =
      { start := -8640000000000000, «end» := 367199308799999 } := new_of_le (by decide)
  have hS : DateRange.new 0 604800000 = { start := 0, «end» := 604800000 } :=
    new_of_le (by decide)
  rw [hR, hS]
  have hvR : valueOf { start := -8640000000000000, «end» := 367199308799999 } =
      9007199308800000 :=
    toNumber_odd_tie 4503599654399999 (by decide) (by decide) (by decide)
  have hvS : valueOf { start := 0, «end» := 604800000 } = 604800000 :=
    numberSub_of_abs_le _ _ (by decide)
  have hl : mathFloorDiv 9007199308800000 604800000 = JSInteger.finite 14892856 := by
    unfold mathFloorDiv
    rw [if_neg (by decide)]
    have hq : ((9007199308800000 : Int) : ℚ) / ((604800000 : Int) : ℚ) =
        ((14892856 : Int) : ℚ) := by norm_num
    rw [hq, roundDouble_intCast 14892856 (by decide), Int.floor_intCast]
  have hfin : mathFloorDiv
      (valueOf { start := -8640000000000000, «end» := 367199308799999 })
      (valueOf { start := 0, «end» := 604800000 }) = JSInteger.finite 14892856 := by
    rw [hvR, hvS]
    exact hl
  have hcount : (((367199308799999 : Int) - -8640000000000000) / 604800000 + 1).toNat =
      14892856 := by decide
  have hlast : numberAdd (-8640000000000000)
      (numberMul 604800000 (0 + ((14892856 : Nat) : Int))) = 367199308800000 := by
    have h1 : numberMul 604800000 (0 + ((14892856 : Nat) : Int)) = 9007199308800000 :=
      toNumber_even 4503599654400000 (by decide) (by decide)
    rw [h1]
    exact numberAdd_of_abs_le _ _ (by decide)
  have hboth : ∀ fuel : Nat, 14892858 ≤ fuel →
      ∃ cu cr,
        «by» (fun _ t => t + 604800000) fuel
            { start := -8640000000000000, «end» := 367199308799999 } (Step.unit "week") =
          some ({ start := -8640000000000000, «end» := 367199308799999 }, cu) ∧
        «by» (fun _ t => t + 604800000) fuel
            { start := -8640000000000000, «end» := 367199308799999 }
            (Step.range { start := 0, «end» := 604800000 }) =
          some ({ start := -8640000000000000, «end» := 367199308799999 }, cr) ∧
        cu.length = 14892856 ∧ cr.length = 14892857 ∧
        cr.getLast? = some 367199308800000 := by
    intro fuel hf
    rw [by_unit_eq, _byString_of_pos (fun _ t => t + 604800000) _ "week" 604800000
        (fun _ => rfl) (by decide) fuel (by rw [hcount]; omega),
      by_range_eq, _byRange_of_finite fuel _ _ 14892856 hfin,
      _byRangeLoop_eq _ _ 14892856 (by decide) 14892857 fuel 0 le_rfl (by decide)
        (by omega), hvS]
    refine ⟨_, _, rfl, rfl, ?_, ?_, ?_⟩
    · rw [List.length_map, List.length_range]
      exact hcount
    · rw [List.length_map, List.length_range]
    · rw [List.getLast?_eq_getElem?, List.length_map, List.length_range,
        getElem?_range_map _ _ _ (by decide)]
      exact congrArg some hlast
  refine ⟨hboth, ?_⟩
  rintro ⟨N, hN⟩
  obtain ⟨cu, cr, hu, hr, hlu, hlr, _⟩ := hboth (max N 14892858) (le_max_right _ _)
  have heq := (hN (max N 14892858) (le_max_left _ _)).2
  rw [hu, hr, Option.some.injEq, Prod.mk.injEq] at heq
  have hlen : cu.length = cr.length := by rw [heq.2]
  omega

/-- C20, amended: for a range `R` with `-2 ^ 53 ≤ R.start ≤ R.end ≤ 2 ^ 53` and
`R.end - R.start < 2 ^ 53`, a unit whose `add(1, unit)` advances a moment by a
fixed `u` with `0 < u ≤ 2 ^ 53`, and a step range `S` of duration `u`,
`R.by(unit, cb)` and `R.by(S, cb)` both end (for any large enough fuel),
return the same and call `cb` with the same sequence of moments. -/
theorem by_modes_agree (add1 : String → Int → Int) (interval : String) (u : Int)
    (hu : 0 < u) (hu' : u ≤ 2 ^ 53) (hadd : ∀ t, add1 interval t = t + u) (R S : DateRange)
    (hord : R.start ≤ R.«end») (hs : -2 ^ 53 ≤ R.start) (he : R.«end» ≤ 2 ^ 53)
    (hdur : R.«end» - R.start < 2 ^ 53) (hS : S.«end» - S.start = u) :
    ∃ N : Nat, ∀ fuel : Nat, N ≤ fuel →
      (R.«by» add1 fuel (Step.unit interval)).isSome = true ∧
        R.«by» add1 fuel (Step.unit interval) = R.«by» add1 fuel (Step.range S) := by
  refine ⟨((R.«end» - R.start) / u + 1).toNat + 1, fun fuel hf => ?_⟩
  rw [by_unit_eq, by_range_eq, _byString_of_pos add1 R interval u hadd hu fuel (by omega),
    _byRange_of_exact R S hord hs he hdur (by omega) (by omega) fuel (by rw [hS]; omega), hS]
  exact ⟨rfl, rfl⟩

/-- C20, amended, for the unit `"day"` of 86400000 ms, a step range of one day
and a range of nine and a half days. -/
theorem by_modes_agree_witness :
    ((0 : Int) < 86400000 ∧ (86400000 : Int) ≤ 2 ^ 53 ∧
        (∀ t : Int, (fun (_ : String) (x : Int) => x + 86400000) "day" t = t + 86400000) ∧
        start { start := 0, «end» := 820800000 } ≤ «end» { start := 0, «end» := 820800000 } ∧
        -2 ^ 53 ≤ start { start := 0, «end» := 820800000 } ∧
        «end» { start := 0, «end» := 820800000 } ≤ 2 ^ 53 ∧
        «end» { start := 0, «end» := 820800000 } - start { start := 0, «end» := 820800000 } <
          2 ^ 53 ∧
        «end» { start := 5, «end» := 86400005 } - start { start := 5, «end» := 86400005 } =
          86400000) ∧
      ∃ N : Nat, ∀ fuel : Nat, N ≤ fuel →
        («by» (fun _ x => x + 86400000) fuel { start := 0, «end» := 820800000 }
            (Step.unit "day")).isSome = true ∧
          «by» (fun _ x => x + 86400000) fuel { start := 0, «end» := 820800000 }
              (Step.unit "day") =
            «by» (fun _ x => x + 86400000) fuel { start := 0, «end» := 820800000 }
              (Step.range ⟨5, 86400005⟩) :=
  ⟨⟨by decide, by decide, fun _ => rfl, by decide, by decide, by decide, by decide, by decide⟩,
    by_modes_agree (fun _ x => x + 86400000) "day" 86400000 (by decide) (by decide)
      (fun _ => rfl) ⟨0, 820800000⟩ ⟨5, 86400005⟩ (by decide) (by decide) (by decide)
      (by decide) (by decide)⟩

end DateRange

/-! ## Iteration over mutable moment objects: `by` leaves its range as it was -/

namespace RangeObj

/-- The counted loop on objects calls back with the values the counted loop
on values emits, and leaves every object that existed before as it was. -/
theorem _byRangeLoop_spec (this interval : RangeObj) (l : Int) (pre : List Int)
    (hs : this.start < pre.length) (he : this.«end» < pre.length)
    (his : interval.start < pre.length) (hie : interval.«end» < pre.length) :
    ∀ (fuel : Nat) (i : Int) (h : Heap), pre <+: h.cells →
      (_byRangeLoop this interval l fuel i h).map (fun r => r.2) =
          DateRange._byRangeLoop (this.value { cells := pre })
            (interval.value { cells := pre }) l fuel i ∧
        ∀ r, _byRangeLoop this interval l fuel i h = some r → pre <+: r.1.cells := by
  intro fuel
  induction fuel with
  | zero =>
    intro i h _
    refine ⟨rfl, fun r hr => ?_⟩
    cases hr
  | succ fuel ih =>
    intro i h hp
    have hv := value_of_prefix hp this hs he
    have hvi := value_of_prefix hp interval his hie
    have hst : h.read this.start = (this.value { cells := pre }).start := by
      rw [← hv]; rfl
    by_cases hil : i ≤ l
    · obtain ⟨ih1, ih2⟩ := ih (numberAdd i 1)
        (h.alloc (numberAdd (h.read this.start)
          (numberMul (interval.value h).valueOf i))).1
        (Heap.prefix_alloc hp _)
      simp only [_byRangeLoop, DateRange._byRangeLoop, if_pos hil, Heap.read_alloc_new,
        Option.map_map]
      constructor
      · rw [← ih1, Option.map_map, hvi, hst]
        rfl
      · intro r hr
        rw [Option.map_eq_some'] at hr
        obtain ⟨r0, hr0, rfl⟩ := hr
        exact ih2 r0 hr0
    · simp only [_byRangeLoop, DateRange._byRangeLoop, if_neg hil, Option.map_some',
        Option.some.injEq]
      refine ⟨trivial, fun r hr => ?_⟩
      rw [← hr]
      exact hp

theorem _byRange_spec (fuel : Nat) (this interval : RangeObj) (h : Heap)
    (hs : this.start < h.cells.length) (he : this.«end» < h.cells.length)
    (his : interval.start < h.cells.length) (hie : interval.«end» < h.cells.length) :
    (_byRange fuel this interval h).map (fun r => r.2) =
        DateRange._byRange fuel (this.value h) (interval.value h) ∧
      ∀ r, _byRange fuel this interval h = some r → h.cells <+: r.1.cells := by
  unfold _byRange DateRange._byRange
  cases hq : mathFloorDiv (this.value h).valueOf (interval.value h).valueOf with
  | finite l =>
    exact _byRangeLoop_spec this interval l h.cells hs he his hie fuel 0 h
      (List.prefix_refl _)
  | infinity =>
    refine ⟨rfl, fun r hr => ?_⟩
    cases hr
    exact List.prefix_refl _
  | negInfinity =>
    refine ⟨rfl, fun r hr => ?_⟩
    cases hr
    exact List.prefix_refl _
  | nan =>
    refine ⟨rfl, fun r hr => ?_⟩
    cases hr
    exact List.prefix_refl _

theorem _byString_spec (add1 : String → Int → Int) (fuel : Nat) (this : RangeObj)
    (interval : String) (h : Heap)
    (hs : this.start < h.cells.length) (he : this.«end» < h.cells.length) :
    (_byString add1 fuel this interval h).map (fun r => r.2) =
        DateRange._byString add1 fuel (this.value h) interval ∧
      ∀ r, _byString add1 fuel this interval h = some r → h.cells <+: r.1.cells := by
  have hp : h.cells <+: (h.alloc (h.read this.start)).1.cells :=
    Heap.prefix_alloc (List.prefix_refl _) _
  have hlt : (h.alloc (h.read this.start)).2 < (h.alloc (h.read this.start)).1.cells.length := by
    rw [Heap.length_alloc]
    exact Nat.lt_succ_self _
  obtain ⟨h1, h2⟩ := _byStringLoop_spec add1 this interval (h.alloc (h.read this.start)).2
    h.cells hs he (le_refl _) fuel (h.alloc (h.read this.start)).1 hp hlt
  rw [Heap.read_alloc_new] at h1
  exact ⟨h1, h2⟩

/-- The call `by` on objects calls back with the values `by` on values emits,
returns its own range object, and leaves every object that existed before the
call as it was. -/
theorem by_spec (add1 : String → Int → Int) (fuel : Nat) (this : RangeObj) (range : StepObj)
    (h : Heap) (hs : this.start < h.cells.length) (he : this.«end» < h.cells.length)
    (hr : range.valid h) :
    (this.«by» add1 fuel range h).map (fun r => r.2.2) =
        ((this.value h).«by» add1 fuel (range.value h)).map (fun r => r.2) ∧
      ∀ r, this.«by» add1 fuel range h = some r → h.cells <+: r.1.cells ∧ r.2.1 = this := by
  cases range with
  | unit interval =>
    obtain ⟨h1, h2⟩ := _byString_spec add1 fuel this interval h hs he
    constructor
    · show ((_byString add1 fuel this interval h).map (fun r => (r.1, this, r.2))).map
          (fun r => r.2.2) =
        ((DateRange._byString add1 fuel (this.value h) interval).map
          (fun calls => (this.value h, calls))).map (fun r => r.2)
      rw [← h1, Option.map_map, Option.map_map, Option.map_map]
      rfl
    · intro r hrun
      have hrun' : (_byString add1 fuel this interval h).map (fun r => (r.1, this, r.2)) =
          some r := hrun
      rw [Option.map_eq_some'] at hrun'
      obtain ⟨r0, hr0, rfl⟩ := hrun'
      exact ⟨h2 r0 hr0, rfl⟩
  | range interval =>
    obtain ⟨h1, h2⟩ := _byRange_spec fuel this interval h hs he hr.1 hr.2
    constructor
    · show ((_byRange fuel this interval h).map (fun r => (r.1, this, r.2))).map
          (fun r => r.2.2) =
        ((DateRange._byRange fuel (this.value h) (interval.value h)).map
          (fun calls => (this.value h, calls))).map (fun r => r.2)
      rw [← h1, Option.map_map, Option.map_map, Option.map_map]
      rfl
    · intro r hrun
      have hrun' : (_byRange fuel this interval h).map (fun r => (r.1, this, r.2)) =
          some r := hrun
      rw [Option.map_eq_some'] at hrun'
      obtain ⟨r0, hr0, rfl⟩ := hrun'
      exact ⟨h2 r0 hr0, rfl⟩

theorem stepObj_value_of_prefix {h h' : Heap} (hp : h.cells <+: h'.cells) (range : StepObj)
    (hr : range.valid h) : range.value h' = range.value h ∧ range.valid h' := by
  cases range with
  | unit interval => exact ⟨rfl, trivial⟩
  | range interval =>
    have hv := value_of_prefix hp interval hr.1 hr.2
    have hl := hp.length_le
    refine ⟨?_, ?_⟩
    · show Step.range (interval.value h') = Step.range (interval.value h)
      rw [hv]
    · exact ⟨lt_of_lt_of_le hr.1 hl, lt_of_lt_of_le hr.2 hl⟩

/-- C15: for a range object `R` and a step (a unit keyword or a step range)
whose moments are objects of the heap, `R.by(step, cb)` calls `cb` with the
moments the value-level `by` emits; when it returns, it returns the object `R`
itself, the moments `R.start` and `R.end` hold the values they held before
(the cursor advanced in place is a new object), and calling `by` again with
the same step calls `cb` with the same sequence. -/
theorem by_leaves_range_unchanged (add1 : String → Int → Int) (fuel : Nat) (R : RangeObj)
    (range : StepObj) (h : Heap) (hs : R.start < h.cells.length)
    (he : R.«end» < h.cells.length) (hr : range.valid h) :
    (R.«by» add1 fuel range h).map (fun r => r.2.2) =
        ((R.value h).«by» add1 fuel (range.value h)).map (fun r => r.2) ∧
      ∀ (h' : Heap) (ret : RangeObj) (calls : List Int),
        R.«by» add1 fuel range h = some (h', ret, calls) →
          ret = R ∧ h'.read R.start = h.read R.start ∧ h'.read R.«end» = h.read R.«end» ∧
            ∃ h'', R.«by» add1 fuel range h' = some (h'', R, calls) := by
  obtain ⟨h1, h2⟩ := by_spec add1 fuel R range h hs he hr
  refine ⟨h1, fun h' ret calls hrun => ?_⟩
  obtain ⟨hp, hret⟩ := h2 _ hrun
  have hp' : h.cells <+: h'.cells := hp
  have hret' : ret = R := hret
  have hv : R.value h' = R.value h := value_of_prefix hp' R hs he
  have hl := hp'.length_le
  obtain ⟨hsv, hsvalid⟩ := stepObj_value_of_prefix hp' range hr
  obtain ⟨k1, k2⟩ := by_spec add1 fuel R range h' (lt_of_lt_of_le hs hl)
    (lt_of_lt_of_le he hl) hsvalid
  refine ⟨hret', congrArg DateRange.start hv, congrArg DateRange.«end» hv, ?_⟩
  rw [hv, hsv, ← h1, hrun] at k1
  cases hrun2 : R.«by» add1 fuel range h' with
  | none =>
    rw [hrun2] at k1
    cases k1
  | some r =>
    rw [hrun2] at k1
    obtain ⟨_, hr2⟩ := k2 r hrun2
    obtain ⟨h'', ret2, calls2⟩ := r
    simp only [Option.map_some', Option.some.injEq] at k1
    simp only at hr2
    exact ⟨h'', by rw [hr2, k1]⟩

/-- C15 for the heap of moments `[1, 10, 0, 3]`, the range object with
moments at addresses 0 and 1, and the step range with moments at addresses 2
and 3. -/
theorem by_leaves_range_unchanged_witness :
    ((0 : Nat) < (Heap.mk [1, 10, 0, 3]).cells.length ∧
        (1 : Nat) < (Heap.mk [1, 10, 0, 3]).cells.length ∧
        StepObj.valid (StepObj.range ⟨2, 3⟩) (Heap.mk [1, 10, 0, 3])) ∧
      ((«by» (fun _ t => t) 10 ⟨0, 1⟩ (StepObj.range ⟨2, 3⟩) (Heap.mk [1, 10, 0, 3])).map
            (fun r => r.2.2) =
          ((value ⟨0, 1⟩ (Heap.mk [1, 10, 0, 3])).«by» (fun _ t => t) 10
            (StepObj.value (StepObj.range ⟨2, 3⟩) (Heap.mk [1, 10, 0, 3]))).map
              (fun r => r.2) ∧
        ∀ (h' : Heap) (ret : RangeObj) (calls : List Int),
          «by» (fun _ t => t) 10 ⟨0, 1⟩ (StepObj.range ⟨2, 3⟩) (Heap.mk [1, 10, 0, 3]) =
              some (h', ret, calls) →
            ret = ⟨0, 1⟩ ∧ h'.read 0 = (Heap.mk [1, 10, 0, 3]).read 0 ∧
              h'.read 1 = (Heap.mk [1, 10, 0, 3]).read 1 ∧
              ∃ h'', «by» (fun _ t => t) 10 ⟨0, 1⟩ (StepObj.range ⟨2, 3⟩) h' =
                some (h'', ⟨0, 1⟩, calls)) :=
  ⟨⟨by decide, by decide, ⟨by decide, by decide⟩⟩,
    by_leaves_range_unchanged (fun _ t => t) 10 ⟨0, 1⟩ (StepObj.range ⟨2, 3⟩)
      (Heap.mk [1, 10, 0, 3]) (by decide) (by decide) ⟨by decide, by decide⟩⟩

end RangeObj

end MomentRange
